import Mathlib

/-!
Verification of the `json-to-variant` ingestion-and-batching pipeline
(`src/json_bench/json_to_variant/src/main.rs`).

The pipeline is embedded shallowly:
  * file contents are `String`s; string operations from the Rust standard
    library (`str::trim`, `BufRead::lines`, `str::len`, byte-oriented path
    comparison) are re-implemented over `List Char` so that every definition
    is kernel-computable (Rust `trim` uses Unicode whitespace; here only the
    ASCII whitespace characters are modelled, which is what every claim
    exercises);
  * paths are lists of components (mirroring `PathBuf`'s component-wise
    ordering); the filesystem is an explicit tree value;
  * the external parquet/arrow collaborators (the variant encoder and the
    `ArrowWriter`) are modelled per §6 of the design document: the encoder is
    an abstract function from optional strings to a columnar batch carrying a
    row count and an opaque schema identifier, and the writer's observable
    effects are recorded in ghost fields (`written`, `closed`) of the
    accumulator state;
  * filesystem reads and output-file writes are assumed to succeed
    (environmental I/O failures are outside the embedding); the failure that
    is modelled is the encoder rejecting a batch, plus the pipeline's own
    error conditions.
-/

deriving instance DecidableEq for Except

namespace JsonToVariant

/-! ### Rust standard-library string behaviour, over `List Char` -/

/-- ASCII whitespace, as recognised by `Char.isWhitespace` / the ASCII part of
Rust's `char::is_whitespace`. -/
def isRustWs (c : Char) : Bool :=
  c = ' ' || c = '\t' || c = '\r' || c = '\n'

/-- `str::trim`: drop leading and trailing whitespace. -/
def trimChars (cs : List Char) : List Char :=
  ((cs.dropWhile isRustWs).reverse.dropWhile isRustWs).reverse

/-- `str::trim` on a `String`. -/
def rustTrim (s : String) : String :=
  String.mk (trimChars s.data)

/-- Split a character list at every newline character. -/
def splitNl : List Char → List (List Char)
  | [] => [[]]
  | c :: rest =>
    let r := splitNl rest
    if c = '\n' then [] :: r
    else
      match r with
      | [] => [[c]]
      | h :: t => (c :: h) :: t

/-- `BufRead::lines`, modelled as splitting on newline characters.  (Rust
drops a final empty segment after a trailing newline and strips `'\r'`; both
differences are invisible here because every line is subsequently trimmed and
blank lines are skipped.) -/
def rustLines (s : String) : List String :=
  (splitNl s.data).map String.mk

/-- UTF-8 byte width of one scalar value (`char::len_utf8`). -/
def charUtf8Size (c : Char) : Nat :=
  if c.toNat < 0x80 then 1
  else if c.toNat < 0x800 then 2
  else if c.toNat < 0x10000 then 3
  else 4

/-- `str::len`: length in UTF-8 bytes. -/
def utf8Len (s : String) : Nat :=
  (s.data.map charUtf8Size).sum

/-- `str::to_ascii_lowercase` (Lean's `Char.toLower` lowercases exactly the
ASCII uppercase range). -/
def asciiLower (s : String) : String :=
  String.mk (s.data.map Char.toLower)

/-! ### Paths and extensions -/

/-- A filesystem path, as its list of components (mirroring `PathBuf`). -/
abbrev Path := List String

/-- `Path::extension` restricted to one file name: the portion after the final
dot, where a dot at the very start of the name does not count (so `.bashrc`
has no extension, `.foo.txt` has extension `txt`, `foo.` has extension ``). -/
def extOfName (name : String) : Option String :=
  match name.data with
  | [] => none
  | _ :: rest =>
    if rest.contains '.' then
      some (String.mk ((rest.reverse.takeWhile (fun c => c ≠ '.')).reverse))
    else none

/-- `Path::extension`: the extension of the last component, if any. -/
def pathExtension (p : Path) : Option String :=
  match p.getLast? with
  | none => none
  | some name => extOfName name

/-- `looks_like_json` (main.rs:172-180): accept recognised JSON-like
extensions case-insensitively, and accept extension-less files. -/
def looks_like_json (p : Path) : Bool :=
  match pathExtension p with
  | some ext =>
      ["json", "jsonl", "ndjson", "jsons", "jsonlines"].contains (asciiLower ext)
  | none => true

/-- `has_ndjson_hint` (main.rs:162-170). -/
def has_ndjson_hint (p : Path) : Bool :=
  match pathExtension p with
  | some ext => ["jsonl", "ndjson", "jsonlines"].contains (asciiLower ext)
  | none => false

/-! ### Path ordering (`PathBuf`'s `Ord`) and `Vec::sort` -/

/-- Byte-wise (equivalently scalar-value-wise, for UTF-8) comparison of two
character lists. -/
def cmpChars : List Char → List Char → Ordering
  | [], [] => .eq
  | [], _ :: _ => .lt
  | _ :: _, [] => .gt
  | a :: as, b :: bs =>
    if a < b then .lt else if b < a then .gt else cmpChars as bs

/-- String comparison as `OsStr` compares: by content bytes. -/
def cmpStr (a b : String) : Ordering :=
  cmpChars a.data b.data

/-- `PathBuf`'s `Ord`: lexicographic over components. -/
def cmpPath : Path → Path → Ordering
  | [], [] => .eq
  | [], _ :: _ => .lt
  | _ :: _, [] => .gt
  | a :: as, b :: bs =>
    match cmpStr a b with
    | .lt => .lt
    | .gt => .gt
    | .eq => cmpPath as bs

/-- The non-strict path order used to state sortedness of `Vec::sort`. -/
def pathLe (a b : Path) : Prop :=
  cmpPath a b ≠ Ordering.gt

instance : DecidableRel pathLe := fun a b => by
  unfold pathLe; infer_instance

/-- `Vec::sort` on paths (a stable ascending sort). -/
def sortPaths (l : List Path) : List Path :=
  List.insertionSort pathLe l

/-! ### Filesystem model and the source enumerator -/

/-- A filesystem entry: a regular file with text content, a directory with a
named entry listing (listing order models the OS iteration order), or
anything that is neither a regular file nor a directory. -/
inductive FsEntry where
  | file (content : String)
  | dir (entries : List (String × FsEntry))
  | other
deriving Repr

/-- Error conditions of the pipeline (§7 of the design document). -/
inductive Err where
  | notFileOrDirectory (path : Path)
  | noSourcesFound (path : Path)
  | emptyNdjsonFile (path : Path)
  | encodingFailure
  | noRowsWritten (path : Path)
deriving Repr, DecidableEq

mutual

/-- One step of the recursive `WalkDir` traversal used by `collect_sources`:
visit the entry at path `p`, keeping regular files that `looks_like_json`. -/
def walkEntryAt (p : Path) : FsEntry → List Path
  | .file _ => if looks_like_json p then [p] else []
  | .dir es => walkListAt p es
  | .other => []

/-- Walk a directory listing rooted at `base`. -/
def walkListAt (base : Path) : List (String × FsEntry) → List Path
  | [] => []
  | (n, e) :: rest => walkEntryAt (base ++ [n]) e ++ walkListAt base rest

end

/-- The non-recursive `fs::read_dir` loop of `collect_sources`: keep only the
immediate regular-file children that `looks_like_json`. -/
def listImmediate (base : Path) : List (String × FsEntry) → List Path
  | [] => []
  | (n, e) :: rest =>
    match e with
    | .file _ =>
        if looks_like_json (base ++ [n]) then (base ++ [n]) :: listImmediate base rest
        else listImmediate base rest
    | _ => listImmediate base rest

/-- `collect_sources` (main.rs:80-106): a root that is a regular file is
returned as-is; a directory is walked (recursively or not) with the
JSON-extension filter and the result sorted; anything else is an error. -/
def collect_sources (input : Path) (root : FsEntry) (recursive : Bool) :
    Except Err (List Path) :=
  match root with
  | .file _ => .ok [input]
  | .other => .error (.notFileOrDirectory input)
  | .dir entries =>
    let files := if recursive then walkListAt input entries else listImmediate input entries
    .ok (sortPaths files)

mutual

/-- Specification-side enumeration: every regular file in the subtree at `p`,
with no extension filter. -/
def allFilesAt (p : Path) : FsEntry → List Path
  | .file _ => [p]
  | .dir es => allFilesListAt p es
  | .other => []

/-- Specification-side enumeration over a directory listing. -/
def allFilesListAt (base : Path) : List (String × FsEntry) → List Path
  | [] => []
  | (n, e) :: rest => allFilesAt (base ++ [n]) e ++ allFilesListAt base rest

end

/-- Specification-side enumeration of the immediate regular-file children. -/
def immediateFilesAt (base : Path) : List (String × FsEntry) → List Path
  | [] => []
  | (n, e) :: rest =>
    match e with
    | .file _ => (base ++ [n]) :: immediateFilesAt base rest
    | _ => immediateFilesAt base rest

mutual

/-- Well-formedness of a filesystem tree: each directory's entry names are
pairwise distinct (true of any real directory). -/
def wfFs : FsEntry → Bool
  | .file _ => true
  | .other => true
  | .dir es => decide (es.map Prod.fst).Nodup && wfFsList es

/-- Well-formedness of each subtree in a listing. -/
def wfFsList : List (String × FsEntry) → Bool
  | [] => true
  | (_, e) :: rest => wfFs e && wfFsList rest

end

/-! ### The external value encoder and `build_batch` -/

/-- The observable shape of a `VariantArray` produced by the external
`json_to_variant` collaborator: its row count and an opaque identifier for
the arrow field (`"data"`) it carries, from which the output schema is
derived.  Modelled from the spec (§6, Value Encoder): the conversion itself
is an external crate, outside this repository. -/
structure VariantArrayM where
  numRows : Nat
  dataField : Nat
deriving Repr, DecidableEq

/-- Modelled from the spec: the external Value Encoder (`json_to_variant`),
a function from an ordered sequence of optional strings to a `VariantArray`,
failing when some string is not valid JSON.  Kept abstract: the pipeline
treats it purely as a function. -/
structure Encoder where
  toVariant : List (Option String) → Except Unit VariantArrayM

/-- The §6 contract that `json_to_variant` produces exactly one variant value
per input element (used only for the exact-count claim). -/
def Encoder.CountPreserving (enc : Encoder) : Prop :=
  ∀ vs va, enc.toVariant vs = Except.ok va → va.numRows = vs.length

/-- The observable shape of one converted `RecordBatch`. -/
structure RecordBatchM where
  numRows : Nat
  schema : Nat
deriving Repr, DecidableEq

/-- `build_batch` (main.rs:258-269): wrap each row in `Some`, convert through
the encoder, and build a single-column batch whose schema comes from the
variant array's `data` field. -/
def build_batch (enc : Encoder) (rows : List String) : Except Err RecordBatchM :=
  let values : List (Option String) := rows.map some
  match enc.toVariant values with
  | .error _ => .error .encodingFailure
  | .ok va => .ok { numRows := va.numRows, schema := va.dataField }

/-! ### The batch accumulator / writer -/

/-- `VariantBatchWriter` (main.rs:182-190).  `writer = none` models the
`Unopened` state and `writer = some s` the `Open` state with schema `s`.
`written`, `closed` and `pushedLog` are ghost fields recording the effects on
the output file (batches appended, footer finalized) and the sequence of rows
ever pushed; the Rust struct's `writer_props` (a fixed snappy-compression
configuration) carries no state and is omitted. -/
structure VariantBatchWriter where
  output : Path
  target_bytes : Nat
  pending_rows : List String
  pending_bytes : Nat
  writer : Option Nat
  total_rows : Nat
  written : List RecordBatchM
  closed : Bool
  pushedLog : List String
deriving Repr, DecidableEq

namespace VariantBatchWriter

/-- `VariantBatchWriter::new` (main.rs:193-207): the byte target is coerced
to at least 1. -/
def new (output : Path) (target_bytes : Nat) : VariantBatchWriter :=
  { output := output
    target_bytes := max target_bytes 1
    pending_rows := []
    pending_bytes := 0
    writer := none
    total_rows := 0
    written := []
    closed := false
    pushedLog := [] }

/-- `VariantBatchWriter::flush` (main.rs:218-245).  Faithful to the source's
order of effects: the pending rows are taken (`mem::take`) before the
conversion, the byte counter is reset only after a successful conversion, the
writer is opened on first use with this batch's schema, and the batch is then
written and counted.  File creation and the write itself are assumed to
succeed (environmental I/O); the modelled failure is the encoder's. -/
def flush (enc : Encoder) (w : VariantBatchWriter) :
    VariantBatchWriter × Option Err :=
  if w.pending_rows.isEmpty then (w, none)
  else
    let rows := w.pending_rows
    let w := { w with pending_rows := [] }
    match build_batch enc rows with
    | .error e => (w, some e)
    | .ok batch =>
      let w := { w with pending_bytes := 0 }
      let w :=
        match w.writer with
        | none => { w with writer := some batch.schema }
        | some _ => w
      let w :=
        { w with
          written := w.written ++ [batch]
          total_rows := w.total_rows + batch.numRows }
      (w, none)

/-- `VariantBatchWriter::push_row` (main.rs:209-216). -/
def push_row (enc : Encoder) (w : VariantBatchWriter) (row : String) :
    VariantBatchWriter × Option Err :=
  let w :=
    { w with
      pending_bytes := w.pending_bytes + utf8Len row
      pending_rows := w.pending_rows ++ [row]
      pushedLog := w.pushedLog ++ [row] }
  if w.target_bytes ≤ w.pending_bytes then w.flush enc else (w, none)

/-- `VariantBatchWriter::finish` (main.rs:247-255): one final drain flush, a
close of the inner writer when one was ever opened (`Option::take`), then the
total row count.  `close` itself is assumed to succeed. -/
def finish (enc : Encoder) (w : VariantBatchWriter) :
    VariantBatchWriter × Except Err Nat :=
  match w.flush enc with
  | (w, some e) => (w, .error e)
  | (w, none) =>
    let wasOpen := w.writer.isSome
    let w := { w with writer := none, closed := if wasOpen then true else w.closed }
    (w, .ok w.total_rows)

end VariantBatchWriter

/-! ### Formats, row extraction, and the per-run driver -/

/-- The `--format` CLI mode (main.rs:68-73). -/
inductive InputFormat where
  | auto
  | ndjson
  | single
deriving Repr, DecidableEq

/-- The resolved per-file format (main.rs:75-78). -/
inductive FileFormat where
  | ndjson
  | single
deriving Repr, DecidableEq

/-- `infer_file_format` (main.rs:154-160). -/
def infer_file_format (p : Path) : FileFormat :=
  if has_ndjson_hint p then .ndjson else .single

/-- The format match at the top of `process_source` (main.rs:113-117). -/
def resolveFormat (requested : InputFormat) (p : Path) : FileFormat :=
  match requested with
  | .auto => infer_file_format p
  | .ndjson => .ndjson
  | .single => .single

/-- A source file presented to the extractor: its path and its text content
(reading the file is assumed to succeed). -/
structure SourceFile where
  path : Path
  content : String
deriving Repr

/-- `process_single_json` (main.rs:125-133): trim the whole content, skip the
file silently when empty, otherwise push exactly one row. -/
def process_single_json (enc : Encoder) (f : SourceFile)
    (w : VariantBatchWriter) : VariantBatchWriter × Option Err :=
  let trimmed := rustTrim f.content
  if trimmed.data = [] then (w, none)
  else w.push_row enc trimmed

/-- The line loop of `process_ndjson_file` (main.rs:138-147), threading the
`saw_row` flag and stopping at the first push failure. -/
def ndjsonLoop (enc : Encoder) :
    List String → Bool → VariantBatchWriter →
    VariantBatchWriter × Bool × Option Err
  | [], saw, w => (w, saw, none)
  | line :: rest, saw, w =>
    let entry := rustTrim line
    if entry.data = [] then ndjsonLoop enc rest saw w
    else
      match w.push_row enc entry with
      | (w, some e) => (w, true, some e)
      | (w, none) => ndjsonLoop enc rest true w

/-- `process_ndjson_file` (main.rs:135-152): push one trimmed row per
non-blank line; fail with `EmptyNdjsonFile` when no row was seen. -/
def process_ndjson_file (enc : Encoder) (f : SourceFile)
    (w : VariantBatchWriter) : VariantBatchWriter × Option Err :=
  match ndjsonLoop enc (rustLines f.content) false w with
  | (w, _, some e) => (w, some e)
  | (w, saw, none) =>
    if saw then (w, none) else (w, some (.emptyNdjsonFile f.path))

/-- `process_source` (main.rs:108-123). -/
def process_source (enc : Encoder) (requested : InputFormat) (f : SourceFile)
    (w : VariantBatchWriter) : VariantBatchWriter × Option Err :=
  match resolveFormat requested f.path with
  | .single => process_single_json enc f w
  | .ndjson => process_ndjson_file enc f w

/-- The `for source in sources` loop of `main` (main.rs:31-33), stopping at
the first failing file. -/
def processAll (enc : Encoder) (requested : InputFormat) :
    List SourceFile → VariantBatchWriter → VariantBatchWriter × Option Err
  | [], w => (w, none)
  | f :: rest, w =>
    match process_source enc requested f w with
    | (w, some e) => (w, some e)
    | (w, none) => processAll enc requested rest w

/-- The run driver of `main` (main.rs:19-42) after source enumeration, over
the already-read source files: bail when there are no sources, process every
file, finish, and bail when zero rows were written.  `input` is the CLI input
root (used only in error payloads). -/
def runOnFiles (enc : Encoder) (requested : InputFormat) (input : Path)
    (files : List SourceFile) (batch_bytes : Nat) : Except Err Nat :=
  if files.isEmpty then .error (.noSourcesFound input)
  else
    let w := VariantBatchWriter.new [] batch_bytes
    match processAll enc requested files w with
    | (_, some e) => .error e
    | (w, none) =>
      match w.finish enc with
      | (_, .error e) => .error e
      | (_, .ok written) =>
        if written = 0 then .error (.noRowsWritten input) else .ok written

/-! ### Derived row counts (the specification's exact-count invariant) -/

/-- The trimmed non-blank rows of a line list. -/
def trimmedRows (lines : List String) : List String :=
  lines.filterMap fun line =>
    let t := rustTrim line
    if t.data = [] then none else some t

/-- The rows an NDJSON file contributes: one trimmed row per non-blank
line. -/
def ndjsonRows (content : String) : List String :=
  trimmedRows (rustLines content)

/-- The rows a single-document file contributes: one trimmed row when the
trimmed content is non-empty. -/
def singleRows (content : String) : List String :=
  let t := rustTrim content
  if t.data = [] then [] else [t]

/-- The rows one source file contributes under a requested format. -/
def fileRows (requested : InputFormat) (f : SourceFile) : List String :=
  match resolveFormat requested f.path with
  | .single => singleRows f.content
  | .ndjson => ndjsonRows f.content

/-- The row count one source file contributes. -/
def fileRowCount (requested : InputFormat) (f : SourceFile) : Nat :=
  (fileRows requested f).length

/-! ### Concrete encoders used by witnesses and counterexamples -/

/-- A well-behaved encoder: one variant per row, a fixed schema. -/
def encOk : Encoder :=
  ⟨fun vs => .ok { numRows := vs.length, dataField := 0 }⟩

/-- An encoder whose derived schema depends on the batch content (used to
observe that later flushes never re-derive the schema). -/
def encByLen : Encoder :=
  ⟨fun vs => .ok { numRows := vs.length, dataField := vs.length }⟩

/-- An encoder that rejects every batch. -/
def encBad : Encoder :=
  ⟨fun _ => .error ()⟩

/-- A mid-run accumulator state holding one pending row of one byte. -/
def wPend1 : VariantBatchWriter :=
  { VariantBatchWriter.new [] 100 with pending_rows := ["x"], pending_bytes := 1 }

/-- An accumulator whose writer is already open with schema `5` and which
holds one pending row. -/
def wOpen5 : VariantBatchWriter :=
  { VariantBatchWriter.new [] 100 with
      writer := some 5, pending_rows := ["ab"], pending_bytes := 2 }

/-! ### Lemmas about `flush` and `push_row` -/

theorem flush_of_empty (enc : Encoder) (w : VariantBatchWriter)
    (h : w.pending_rows = []) : w.flush enc = (w, none) := by
  unfold VariantBatchWriter.flush
  simp [h]

theorem flush_err (enc : Encoder) (w : VariantBatchWriter)
    (hne : w.pending_rows ≠ []) (hb : build_batch enc w.pending_rows = .error Err.encodingFailure) :
    w.flush enc = ({ w with pending_rows := [] }, some Err.encodingFailure) := by
  unfold VariantBatchWriter.flush
  simp [hne, hb]

theorem flush_ok_unopened (enc : Encoder) (w : VariantBatchWriter) (b : RecordBatchM)
    (hne : w.pending_rows ≠ []) (hw : w.writer = none)
    (hb : build_batch enc w.pending_rows = .ok b) :
    w.flush enc =
      ({ w with pending_rows := [], pending_bytes := 0, writer := some b.schema,
                written := w.written ++ [b], total_rows := w.total_rows + b.numRows },
       none) := by
  unfold VariantBatchWriter.flush
  simp [hne, hb, hw]

theorem flush_ok_opened (enc : Encoder) (w : VariantBatchWriter) (b : RecordBatchM) (s : Nat)
    (hne : w.pending_rows ≠ []) (hw : w.writer = some s)
    (hb : build_batch enc w.pending_rows = .ok b) :
    w.flush enc =
      ({ w with pending_rows := [], pending_bytes := 0,
                written := w.written ++ [b], total_rows := w.total_rows + b.numRows },
       none) := by
  unfold VariantBatchWriter.flush
  simp [hne, hb, hw]

/-- Every `build_batch` failure is an encoding failure, so the error case of
`flush` can always be put in the `flush_err` form. -/
theorem build_batch_err (enc : Encoder) (rows : List String) (e : Err)
    (h : build_batch enc rows = .error e) : e = Err.encodingFailure := by
  unfold build_batch at h
  cases hv : enc.toVariant (rows.map some) <;> simp [hv] at h
  exact h.symm

/-- Frame conditions of `flush`, independent of the encoder's behaviour: the
fields that flushing never touches, the monotone growth of the output log,
and the take-and-clear of the pending buffer. -/
theorem flush_frame (enc : Encoder) (w : VariantBatchWriter) :
    (w.flush enc).1.closed = w.closed ∧
    (w.flush enc).1.pushedLog = w.pushedLog ∧
    (w.flush enc).1.target_bytes = w.target_bytes ∧
    (w.flush enc).1.output = w.output ∧
    (w.flush enc).1.pending_rows = [] ∧
    (∃ t, (w.flush enc).1.written = w.written ++ t) ∧
    w.total_rows ≤ (w.flush enc).1.total_rows ∧
    (∀ s, w.writer = some s → (w.flush enc).1.writer = some s) := by
  by_cases hne : w.pending_rows = []
  · rw [flush_of_empty enc w hne]
    exact ⟨rfl, rfl, rfl, rfl, hne, ⟨[], by simp⟩, le_refl _, fun s hs => hs⟩
  · cases hb : build_batch enc w.pending_rows with
    | error e =>
      have he := build_batch_err enc w.pending_rows e hb
      subst he
      rw [flush_err enc w hne hb]
      exact ⟨rfl, rfl, rfl, rfl, rfl, ⟨[], by simp⟩, le_refl _, fun s hs => hs⟩
    | ok b =>
      rcases hw : w.writer with _ | s
      · rw [flush_ok_unopened enc w b hne hw hb]
        exact ⟨rfl, rfl, rfl, rfl, rfl, ⟨[b], rfl⟩, Nat.le_add_right _ _,
          fun s hs => Option.noConfusion hs⟩
      · rw [flush_ok_opened enc w b s hne hw hb]
        exact ⟨rfl, rfl, rfl, rfl, rfl, ⟨[b], rfl⟩, Nat.le_add_right _ _,
          fun s' hs => hw.trans hs⟩

/-- The state appended by `push_row` before the threshold test. -/
def afterAppend (w : VariantBatchWriter) (row : String) : VariantBatchWriter :=
  { w with
    pending_bytes := w.pending_bytes + utf8Len row
    pending_rows := w.pending_rows ++ [row]
    pushedLog := w.pushedLog ++ [row] }

theorem push_row_eq (enc : Encoder) (w : VariantBatchWriter) (row : String) :
    w.push_row enc row =
      if (afterAppend w row).target_bytes ≤ (afterAppend w row).pending_bytes then
        (afterAppend w row).flush enc
      else (afterAppend w row, none) := rfl

/-- Frame conditions of `push_row`. -/
theorem push_frame (enc : Encoder) (w : VariantBatchWriter) (row : String) :
    (w.push_row enc row).1.closed = w.closed ∧
    (w.push_row enc row).1.pushedLog = w.pushedLog ++ [row] ∧
    (w.push_row enc row).1.target_bytes = w.target_bytes ∧
    (w.push_row enc row).1.output = w.output ∧
    (∃ t, (w.push_row enc row).1.written = w.written ++ t) ∧
    w.total_rows ≤ (w.push_row enc row).1.total_rows ∧
    (∀ s, w.writer = some s → (w.push_row enc row).1.writer = some s) := by
  rw [push_row_eq]
  by_cases hc : (afterAppend w row).target_bytes ≤ (afterAppend w row).pending_bytes
  · simp only [hc, if_pos]
    obtain ⟨h1, h2, h3, h4, _, h6, h7, h8⟩ := flush_frame enc (afterAppend w row)
    exact ⟨h1, h2, h3, h4, h6, h7, h8⟩
  · simp only [hc, if_neg, not_false_iff]
    exact ⟨rfl, rfl, rfl, rfl, ⟨[], by simp [afterAppend]⟩, le_refl _, fun s hs => hs⟩

/-! ### The exact-count invariant -/

/-- Rows alive in the accumulator: already written plus still pending. -/
def liveRows (w : VariantBatchWriter) : Nat :=
  w.total_rows + w.pending_rows.length

theorem build_batch_count {enc : Encoder} (hcp : enc.CountPreserving)
    {rows : List String} {b : RecordBatchM}
    (hb : build_batch enc rows = .ok b) : b.numRows = rows.length := by
  cases hv : enc.toVariant (rows.map some) with
  | error e => simp [build_batch, hv] at hb
  | ok va =>
    simp only [build_batch, hv, Except.ok.injEq] at hb
    subst hb
    have := hcp _ _ hv
    simpa using this

theorem flush_live {enc : Encoder} (hcp : enc.CountPreserving)
    (w : VariantBatchWriter) (h : (w.flush enc).2 = none) :
    liveRows (w.flush enc).1 = liveRows w := by
  by_cases hne : w.pending_rows = []
  · rw [flush_of_empty enc w hne]
  · cases hb : build_batch enc w.pending_rows with
    | error e =>
      have he := build_batch_err enc w.pending_rows e hb
      subst he
      rw [flush_err enc w hne hb] at h
      cases h
    | ok b =>
      have hbc := build_batch_count hcp hb
      cases hw : w.writer with
      | none =>
        rw [flush_ok_unopened enc w b hne hw hb]
        simp [liveRows, hbc]
      | some s =>
        rw [flush_ok_opened enc w b s hne hw hb]
        simp [liveRows, hbc]

theorem push_live {enc : Encoder} (hcp : enc.CountPreserving)
    (w : VariantBatchWriter) (row : String)
    (h : (w.push_row enc row).2 = none) :
    liveRows (w.push_row enc row).1 = liveRows w + 1 := by
  rw [push_row_eq] at h ⊢
  by_cases hc : (afterAppend w row).target_bytes ≤ (afterAppend w row).pending_bytes
  · simp only [hc, if_pos] at h ⊢
    rw [flush_live hcp _ h]
    simp only [liveRows, afterAppend, List.length_append, List.length_cons,
      List.length_nil]
    omega
  · simp only [hc, if_neg, not_false_iff] at h ⊢
    simp only [liveRows, afterAppend, List.length_append, List.length_cons,
      List.length_nil]
    omega

/-! ### Lemmas about row extraction -/

theorem trimmedRows_nil : trimmedRows [] = [] := rfl

theorem trimmedRows_cons_blank (line : String) (rest : List String)
    (hb : (rustTrim line).data = []) :
    trimmedRows (line :: rest) = trimmedRows rest := by
  simp [trimmedRows, List.filterMap_cons, hb]

theorem trimmedRows_cons_row (line : String) (rest : List String)
    (hb : ¬(rustTrim line).data = []) :
    trimmedRows (line :: rest) = rustTrim line :: trimmedRows rest := by
  simp [trimmedRows, List.filterMap_cons, hb]

theorem ndjsonLoop_nil (enc : Encoder) (saw : Bool) (w : VariantBatchWriter) :
    ndjsonLoop enc [] saw w = (w, saw, none) := rfl

theorem ndjsonLoop_cons_blank (enc : Encoder) (line : String) (rest : List String)
    (saw : Bool) (w : VariantBatchWriter) (hb : (rustTrim line).data = []) :
    ndjsonLoop enc (line :: rest) saw w = ndjsonLoop enc rest saw w := by
  simp [ndjsonLoop, hb]

theorem ndjsonLoop_cons_row (enc : Encoder) (line : String) (rest : List String)
    (saw : Bool) (w w1 : VariantBatchWriter) (r : Option Err)
    (hb : ¬(rustTrim line).data = [])
    (hp : w.push_row enc (rustTrim line) = (w1, r)) :
    ndjsonLoop enc (line :: rest) saw w =
      match r with
      | some e => (w1, true, some e)
      | none => ndjsonLoop enc rest true w1 := by
  cases r with
  | some e => simp [ndjsonLoop, hb, hp]
  | none => simp [ndjsonLoop, hb, hp]

theorem process_single_spec {enc : Encoder} (hcp : enc.CountPreserving)
    (f : SourceFile) (w : VariantBatchWriter)
    (h : (process_single_json enc f w).2 = none) :
    liveRows (process_single_json enc f w).1
        = liveRows w + (singleRows f.content).length ∧
    (process_single_json enc f w).1.pushedLog
        = w.pushedLog ++ singleRows f.content := by
  by_cases he : (rustTrim f.content).data = []
  · simp [process_single_json, singleRows, he]
  · have heq : process_single_json enc f w = w.push_row enc (rustTrim f.content) := by
      simp [process_single_json, he]
    have hrows : singleRows f.content = [rustTrim f.content] := by
      simp [singleRows, he]
    rw [heq] at h ⊢
    rw [hrows]
    refine ⟨?_, ?_⟩
    · rw [push_live hcp w (rustTrim f.content) h]
      simp
    · exact (push_frame enc w (rustTrim f.content)).2.1

theorem ndjsonLoop_spec {enc : Encoder} (hcp : enc.CountPreserving) :
    ∀ (lines : List String) (saw : Bool) (w : VariantBatchWriter),
      (ndjsonLoop enc lines saw w).2.2 = none →
      liveRows (ndjsonLoop enc lines saw w).1
          = liveRows w + (trimmedRows lines).length ∧
      (ndjsonLoop enc lines saw w).1.pushedLog
          = w.pushedLog ++ trimmedRows lines ∧
      (ndjsonLoop enc lines saw w).2.1 = (saw || decide (trimmedRows lines ≠ []))
  | [], saw, w, _ => by simp [ndjsonLoop_nil, trimmedRows_nil]
  | line :: rest, saw, w, h => by
    by_cases hb : (rustTrim line).data = []
    · rw [ndjsonLoop_cons_blank enc line rest saw w hb] at h ⊢
      rw [trimmedRows_cons_blank line rest hb]
      exact ndjsonLoop_spec hcp rest saw w h
    · cases hp : w.push_row enc (rustTrim line) with
      | mk w1 r =>
        rw [ndjsonLoop_cons_row enc line rest saw w w1 r hb hp] at h ⊢
        cases r with
        | some e => exact Option.noConfusion h
        | none =>
          obtain ⟨ih1, ih2, ih3⟩ := ndjsonLoop_spec hcp rest true w1 h
          have hl : liveRows w1 = liveRows w + 1 := by
            have hpl := push_live hcp w (rustTrim line) (by rw [hp])
            rw [hp] at hpl
            exact hpl
          have hplog : w1.pushedLog = w.pushedLog ++ [rustTrim line] := by
            have hpf := (push_frame enc w (rustTrim line)).2.1
            rw [hp] at hpf
            exact hpf
          rw [trimmedRows_cons_row line rest hb]
          refine ⟨?_, ?_, ?_⟩
          · rw [ih1, hl]
            simp only [List.length_cons]
            omega
          · rw [ih2, hplog]
            simp
          · rw [ih3]
            simp

theorem process_ndjson_spec {enc : Encoder} (hcp : enc.CountPreserving)
    (f : SourceFile) (w : VariantBatchWriter)
    (h : (process_ndjson_file enc f w).2 = none) :
    liveRows (process_ndjson_file enc f w).1
        = liveRows w + (ndjsonRows f.content).length ∧
    (process_ndjson_file enc f w).1.pushedLog
        = w.pushedLog ++ ndjsonRows f.content := by
  unfold process_ndjson_file at h ⊢
  cases hl : ndjsonLoop enc (rustLines f.content) false w with
  | mk w1 p =>
    cases p with
    | mk saw r =>
      cases r with
      | some e =>
        rw [hl] at h
        exact Option.noConfusion h
      | none =>
        obtain ⟨h1, h2, _⟩ := ndjsonLoop_spec hcp (rustLines f.content) false w (by rw [hl])
        rw [hl] at h1 h2
        cases saw with
        | false =>
          rw [hl] at h
          exact Option.noConfusion h
        | true => exact ⟨h1, h2⟩

theorem process_source_spec {enc : Encoder} (hcp : enc.CountPreserving)
    (fmt : InputFormat) (f : SourceFile) (w : VariantBatchWriter)
    (h : (process_source enc fmt f w).2 = none) :
    liveRows (process_source enc fmt f w).1
        = liveRows w + fileRowCount fmt f ∧
    (process_source enc fmt f w).1.pushedLog
        = w.pushedLog ++ fileRows fmt f := by
  unfold process_source at h ⊢
  unfold fileRowCount fileRows
  cases hf : resolveFormat fmt f.path with
  | single =>
    rw [hf] at h
    exact process_single_spec hcp f w h
  | ndjson =>
    rw [hf] at h
    exact process_ndjson_spec hcp f w h

theorem processAll_spec {enc : Encoder} (hcp : enc.CountPreserving)
    (fmt : InputFormat) :
    ∀ (files : List SourceFile) (w : VariantBatchWriter),
      (processAll enc fmt files w).2 = none →
      liveRows (processAll enc fmt files w).1
          = liveRows w + (files.map (fileRowCount fmt)).sum ∧
      (processAll enc fmt files w).1.pushedLog
          = w.pushedLog ++ files.flatMap (fileRows fmt)
  | [], w, _ => by simp [processAll]
  | f :: rest, w, h => by
    cases hp : process_source enc fmt f w with
    | mk w1 r =>
      cases r with
      | some e =>
        have hpa : processAll enc fmt (f :: rest) w = (w1, some e) := by
          simp only [processAll, hp]
        rw [hpa] at h; exact Option.noConfusion h
      | none =>
        have hpa : processAll enc fmt (f :: rest) w = processAll enc fmt rest w1 := by
          simp only [processAll, hp]
        rw [hpa] at h ⊢
        obtain ⟨ih1, ih2⟩ := processAll_spec hcp fmt rest w1 h
        obtain ⟨hs1, hs2⟩ := process_source_spec hcp fmt f w (by rw [hp])
        rw [hp] at hs1 hs2
        refine ⟨?_, ?_⟩
        · rw [ih1, hs1]
          simp [Nat.add_assoc]
        · rw [ih2, hs2]
          simp

/-! ### Lemmas about `finish` and the run driver -/

theorem finish_of_flush_ok (enc : Encoder) (w w1 : VariantBatchWriter)
    (hf : w.flush enc = (w1, none)) :
    w.finish enc =
      ({ w1 with writer := none,
                 closed := if w1.writer.isSome then true else w1.closed },
       Except.ok w1.total_rows) := by
  unfold VariantBatchWriter.finish
  rw [hf]

theorem finish_of_flush_err (enc : Encoder) (w w1 : VariantBatchWriter) (e : Err)
    (hf : w.flush enc = (w1, some e)) :
    w.finish enc = (w1, Except.error e) := by
  unfold VariantBatchWriter.finish
  rw [hf]

theorem liveRows_new (out : Path) (bb : Nat) :
    liveRows (VariantBatchWriter.new out bb) = 0 := rfl

/-- Step equation of the run driver when every file processed. -/
theorem runOnFiles_eq_ok (enc : Encoder) (fmt : InputFormat) (input : Path)
    (files : List SourceFile) (bb : Nat) (w1 : VariantBatchWriter)
    (hne : ¬files = [])
    (hpa : processAll enc fmt files (VariantBatchWriter.new [] bb) = (w1, none)) :
    runOnFiles enc fmt input files bb =
      (match w1.finish enc with
       | (_, Except.error e) => Except.error e
       | (_, Except.ok written) =>
         if written = 0 then Except.error (Err.noRowsWritten input)
         else Except.ok written) := by
  simp only [runOnFiles]
  rw [if_neg (by simpa using hne), hpa]

/-- Step equation of the run driver when some file fails. -/
theorem runOnFiles_eq_err (enc : Encoder) (fmt : InputFormat) (input : Path)
    (files : List SourceFile) (bb : Nat) (w1 : VariantBatchWriter) (e : Err)
    (hne : ¬files = [])
    (hpa : processAll enc fmt files (VariantBatchWriter.new [] bb) = (w1, some e)) :
    runOnFiles enc fmt input files bb = Except.error e := by
  simp only [runOnFiles]
  rw [if_neg (by simpa using hne), hpa]

/-- Success analysis of the run driver: a successful run went through a
successful `processAll`, a successful drain flush, returned that state's
total, and had sources. -/
theorem runOnFiles_ok {enc : Encoder} {fmt : InputFormat} {input : Path}
    {files : List SourceFile} {bb n : Nat}
    (h : runOnFiles enc fmt input files bb = Except.ok n) :
    files ≠ [] ∧
    ∃ w1 w2,
      processAll enc fmt files (VariantBatchWriter.new [] bb) = (w1, none) ∧
      w1.flush enc = (w2, none) ∧ n = w2.total_rows ∧ n ≠ 0 := by
  by_cases hf : files = []
  · unfold runOnFiles at h
    simp [hf] at h
  · refine ⟨hf, ?_⟩
    cases hpa : processAll enc fmt files (VariantBatchWriter.new [] bb) with
    | mk w1 r =>
      cases r with
      | some e =>
        rw [runOnFiles_eq_err enc fmt input files bb w1 e hf hpa] at h
        exact Except.noConfusion h
      | none =>
        refine ⟨w1, ?_⟩
        rw [runOnFiles_eq_ok enc fmt input files bb w1 hf hpa] at h
        cases hfl : w1.flush enc with
        | mk w2 r2 =>
          cases r2 with
          | some e =>
            rw [finish_of_flush_err enc w1 w2 e hfl] at h
            exact Except.noConfusion h
          | none =>
            rw [finish_of_flush_ok enc w1 w2 hfl] at h
            have h3 : (if w2.total_rows = 0
                then (Except.error (Err.noRowsWritten input) : Except Err Nat)
                else Except.ok w2.total_rows) = Except.ok n := h
            by_cases hz : w2.total_rows = 0
            · rw [if_pos hz] at h3
              exact Except.noConfusion h3
            · rw [if_neg hz] at h3
              injection h3 with h4
              exact ⟨w2, rfl, rfl, h4.symm, by rw [← h4]; exact hz⟩

/-! ### Claim C1 -/

theorem encOk_cp : encOk.CountPreserving := by
  intro vs va h
  simp only [encOk, Except.ok.injEq] at h
  rw [← h]

/-- Claim C1: for every run that completes successfully, the total row count
returned by `finish` (the count `main` prints) equals the number of
non-blank lines across all NDJSON-format inputs plus the number of
single-document inputs whose trimmed content is non-empty — assuming only
the §6 encoder contract (one variant value per input row). -/
theorem claim_C1_exact_row_count (enc : Encoder) (fmt : InputFormat)
    (input : Path) (files : List SourceFile) (bb n : Nat)
    (hcp : enc.CountPreserving)
    (h : runOnFiles enc fmt input files bb = Except.ok n) :
    n = (files.map (fileRowCount fmt)).sum := by
  obtain ⟨-, w1, w2, hpa, hfl, hn, -⟩ := runOnFiles_ok h
  obtain ⟨hlive, -⟩ := processAll_spec hcp fmt files (VariantBatchWriter.new [] bb)
    (by rw [hpa])
  rw [hpa] at hlive
  have hl2 : liveRows w2 = liveRows w1 := by
    have := flush_live hcp w1 (by rw [hfl])
    rw [hfl] at this
    exact this
  have hp2 : w2.pending_rows = [] := by
    have := (flush_frame enc w1).2.2.2.2.1
    rw [hfl] at this
    exact this
  have : w2.total_rows = liveRows w2 := by
    simp [liveRows, hp2]
  rw [hn, this, hl2, hlive, liveRows_new]
  simp

/-- Witness for C1: a concrete successful run over one NDJSON file (two
non-blank lines) and one single-document file. -/
theorem claim_C1_witness :
    (3 : Nat) =
      ([⟨["in", "x.jsonl"], "a\n\nb"⟩,
        ⟨["in", "y.json"], " 7 "⟩].map (fileRowCount InputFormat.auto)).sum :=
  claim_C1_exact_row_count encOk InputFormat.auto ["in"]
    [⟨["in", "x.jsonl"], "a\n\nb"⟩, ⟨["in", "y.json"], " 7 "⟩] 10 3
    encOk_cp (by decide)

/-! ### Monotonicity: no step of the pipeline rolls work back -/

/-- `stepMono w w'` says `w'` extends `w`: the output file keeps every batch
already written, the total never decreases, the pushed-row log keeps every
row, and the finalization flag is untouched. -/
def stepMono (w w' : VariantBatchWriter) : Prop :=
  (∃ t, w'.written = w.written ++ t) ∧
  w.total_rows ≤ w'.total_rows ∧
  w'.closed = w.closed ∧
  (∃ t, w'.pushedLog = w.pushedLog ++ t)

theorem stepMono_refl (w : VariantBatchWriter) : stepMono w w :=
  ⟨⟨[], by simp⟩, le_refl _, rfl, ⟨[], by simp⟩⟩

theorem stepMono_trans {a b c : VariantBatchWriter}
    (h1 : stepMono a b) (h2 : stepMono b c) : stepMono a c := by
  obtain ⟨⟨t1, hw1⟩, ht1, hc1, ⟨u1, hp1⟩⟩ := h1
  obtain ⟨⟨t2, hw2⟩, ht2, hc2, ⟨u2, hp2⟩⟩ := h2
  exact ⟨⟨t1 ++ t2, by rw [hw2, hw1, List.append_assoc]⟩, le_trans ht1 ht2,
    hc2.trans hc1, ⟨u1 ++ u2, by rw [hp2, hp1, List.append_assoc]⟩⟩

theorem flush_stepMono (enc : Encoder) (w : VariantBatchWriter) :
    stepMono w (w.flush enc).1 := by
  obtain ⟨h1, h2, _, _, _, h6, h7, _⟩ := flush_frame enc w
  exact ⟨h6, h7, h1, ⟨[], by rw [h2, List.append_nil]⟩⟩

theorem push_stepMono (enc : Encoder) (w : VariantBatchWriter) (row : String) :
    stepMono w (w.push_row enc row).1 := by
  obtain ⟨h1, h2, _, _, h5, h6, _⟩ := push_frame enc w row
  exact ⟨h5, h6, h1, ⟨[row], h2⟩⟩

theorem process_single_stepMono (enc : Encoder) (f : SourceFile)
    (w : VariantBatchWriter) : stepMono w (process_single_json enc f w).1 := by
  unfold process_single_json
  by_cases he : (rustTrim f.content).data = []
  · simp only [he, if_pos]
    exact stepMono_refl w
  · simp only [he, if_neg, not_false_iff]
    exact push_stepMono enc w (rustTrim f.content)

theorem ndjsonLoop_stepMono (enc : Encoder) :
    ∀ (lines : List String) (saw : Bool) (w : VariantBatchWriter),
      stepMono w (ndjsonLoop enc lines saw w).1
  | [], saw, w => stepMono_refl w
  | line :: rest, saw, w => by
    by_cases hb : (rustTrim line).data = []
    · rw [ndjsonLoop_cons_blank enc line rest saw w hb]
      exact ndjsonLoop_stepMono enc rest saw w
    · cases hp : w.push_row enc (rustTrim line) with
      | mk w1 r =>
        rw [ndjsonLoop_cons_row enc line rest saw w w1 r hb hp]
        have hpush : stepMono w w1 := by
          have hm := push_stepMono enc w (rustTrim line)
          rw [hp] at hm
          exact hm
        cases r with
        | some e => exact hpush
        | none => exact stepMono_trans hpush (ndjsonLoop_stepMono enc rest true w1)

theorem process_ndjson_stepMono (enc : Encoder) (f : SourceFile)
    (w : VariantBatchWriter) : stepMono w (process_ndjson_file enc f w).1 := by
  unfold process_ndjson_file
  cases hl : ndjsonLoop enc (rustLines f.content) false w with
  | mk w1 p =>
    have hm := ndjsonLoop_stepMono enc (rustLines f.content) false w
    rw [hl] at hm
    cases p with
    | mk saw r =>
      cases r with
      | some e => exact hm
      | none =>
        cases saw with
        | false => exact hm
        | true => exact hm

theorem process_source_stepMono (enc : Encoder) (fmt : InputFormat)
    (f : SourceFile) (w : VariantBatchWriter) :
    stepMono w (process_source enc fmt f w).1 := by
  unfold process_source
  cases resolveFormat fmt f.path with
  | single => exact process_single_stepMono enc f w
  | ndjson => exact process_ndjson_stepMono enc f w

theorem processAll_stepMono (enc : Encoder) (fmt : InputFormat) :
    ∀ (files : List SourceFile) (w : VariantBatchWriter),
      stepMono w (processAll enc fmt files w).1
  | [], w => stepMono_refl w
  | f :: rest, w => by
    cases hp : process_source enc fmt f w with
    | mk w1 r =>
      have hm : stepMono w w1 := by
        have := process_source_stepMono enc fmt f w
        rw [hp] at this
        exact this
      cases r with
      | some e =>
        have hpa : processAll enc fmt (f :: rest) w = (w1, some e) := by
          simp only [processAll, hp]
        rw [hpa]
        exact hm
      | none =>
        have hpa : processAll enc fmt (f :: rest) w = processAll enc fmt rest w1 := by
          simp only [processAll, hp]
        rw [hpa]
        exact stepMono_trans hm (processAll_stepMono enc fmt rest w1)

/-- The `main` loop over `a ++ b` runs `a`, then `b` on the resulting state
unless `a` already failed. -/
theorem processAll_append (enc : Encoder) (fmt : InputFormat) :
    ∀ (a b : List SourceFile) (w : VariantBatchWriter),
      processAll enc fmt (a ++ b) w =
        (match processAll enc fmt a w with
         | (w1, some e) => (w1, some e)
         | (w1, none) => processAll enc fmt b w1)
  | [], b, w => by simp [processAll]
  | f :: rest, b, w => by
    cases hp : process_source enc fmt f w with
    | mk w1 r =>
      cases r with
      | some e =>
        have h1 : processAll enc fmt ((f :: rest) ++ b) w = (w1, some e) := by
          simp only [List.cons_append, processAll, hp]
        have h2 : processAll enc fmt (f :: rest) w = (w1, some e) := by
          simp only [processAll, hp]
        rw [h1, h2]
      | none =>
        have h1 : processAll enc fmt ((f :: rest) ++ b) w
            = processAll enc fmt (rest ++ b) w1 := by
          simp only [List.cons_append, processAll, hp]
          rfl
        have h2 : processAll enc fmt (f :: rest) w = processAll enc fmt rest w1 := by
          simp only [processAll, hp]
        rw [h1, h2]
        exact processAll_append enc fmt rest b w1

/-! ### Claim C10 -/

/-- Claim C10: a fatal condition partway through a run does not undo work
already done.  If the files before `bad` all processed and `bad` fails, the
whole run fails with that error and final state, yet the output file keeps
every batch written before the failure, the accumulated total keeps its
pre-failure value, every row pushed earlier stays pushed, and the writer is
never closed — so an unfinalized partial output file remains. -/
theorem claim_C10_no_rollback (enc : Encoder) (fmt : InputFormat)
    (done : List SourceFile) (bad : SourceFile) (rest : List SourceFile)
    (w0 w1 w2 : VariantBatchWriter) (e : Err)
    (h1 : processAll enc fmt done w0 = (w1, none))
    (h2 : process_source enc fmt bad w1 = (w2, some e)) :
    processAll enc fmt (done ++ bad :: rest) w0 = (w2, some e) ∧
    (∃ t, w2.written = w1.written ++ t) ∧
    w1.total_rows ≤ w2.total_rows ∧
    (∃ t, w2.pushedLog = w1.pushedLog ++ t) ∧
    w2.closed = w0.closed := by
  have hm1 : stepMono w0 w1 := by
    have := processAll_stepMono enc fmt done w0
    rw [h1] at this
    exact this
  have hm2 : stepMono w1 w2 := by
    have := process_source_stepMono enc fmt bad w1
    rw [h2] at this
    exact this
  refine ⟨?_, hm2.1, hm2.2.1, hm2.2.2.2, hm2.2.2.1.trans hm1.2.2.1⟩
  rw [processAll_append enc fmt done (bad :: rest) w0, h1]
  simp only [processAll, h2]

/-- Witness for C10: with a one-byte batch threshold, a good single-document
file is flushed to the output, then a blank NDJSON file fails; the written
batch, total, pushed row and untouched finalization flag survive. -/
theorem claim_C10_witness :
    processAll encOk InputFormat.auto
        [⟨["a.json"], "x"⟩, ⟨["b.jsonl"], " \n "⟩]
        (VariantBatchWriter.new [] 1)
      = ({ VariantBatchWriter.new [] 1 with
             writer := some 0, total_rows := 1,
             written := [⟨1, 0⟩], pushedLog := ["x"] },
         some (Err.emptyNdjsonFile ["b.jsonl"])) ∧
    ({ VariantBatchWriter.new [] 1 with
         writer := some 0, total_rows := 1,
         written := [⟨1, 0⟩], pushedLog := ["x"] } : VariantBatchWriter).closed
      = (VariantBatchWriter.new [] 1).closed := by
  have h := claim_C10_no_rollback encOk InputFormat.auto
    [⟨["a.json"], "x"⟩] ⟨["b.jsonl"], " \n "⟩ []
    (VariantBatchWriter.new [] 1)
    ({ VariantBatchWriter.new [] 1 with
         writer := some 0, total_rows := 1,
         written := [⟨1, 0⟩], pushedLog := ["x"] })
    ({ VariantBatchWriter.new [] 1 with
         writer := some 0, total_rows := 1,
         written := [⟨1, 0⟩], pushedLog := ["x"] })
    (Err.emptyNdjsonFile ["b.jsonl"]) (by decide) (by decide)
  exact ⟨h.1, h.2.2.2.2⟩

/-! ### Claim C2 -/

/-- Claim C2: the output-writer state machine.  (a) From `Unopened`
(`writer = none`), a flush either leaves the writer and output untouched, or
— exactly when the pending buffer is non-empty and its conversion succeeds —
opens the writer with the schema derived from that flush's converted batch
and writes that batch.  (b) From `Open s`, every flush keeps schema `s`, and
a successful non-empty flush appends its batch under that same schema with
no re-derivation or validation, whatever the new batch's own derived schema.
(c) Neither flush nor push ever finalizes. (d) `finish` finalizes exactly
when the writer was ever opened (checked after the drain flush). -/
theorem claim_C2_writer_state_machine (enc : Encoder) (w : VariantBatchWriter) :
    (w.writer = none →
      ((w.flush enc).1.writer = none ∧ (w.flush enc).1.written = w.written) ∨
      (∃ b, w.pending_rows ≠ [] ∧ build_batch enc w.pending_rows = Except.ok b ∧
        (w.flush enc).1.writer = some b.schema ∧
        (w.flush enc).1.written = w.written ++ [b])) ∧
    (∀ s, w.writer = some s →
      (w.flush enc).1.writer = some s ∧
      (∀ b, w.pending_rows ≠ [] → build_batch enc w.pending_rows = Except.ok b →
        (w.flush enc).1.written = w.written ++ [b])) ∧
    ((w.flush enc).1.closed = w.closed ∧
      ∀ r, (w.push_row enc r).1.closed = w.closed) ∧
    (∀ w1, w.flush enc = (w1, none) →
      (w.finish enc).1.closed = (if w1.writer.isSome then true else w1.closed)) := by
  refine ⟨?_, ?_, ?_, ?_⟩
  · intro hw
    by_cases hne : w.pending_rows = []
    · rw [flush_of_empty enc w hne]
      exact Or.inl ⟨hw, rfl⟩
    · cases hb : build_batch enc w.pending_rows with
      | error e =>
        have he := build_batch_err enc w.pending_rows e hb
        subst he
        rw [flush_err enc w hne hb]
        exact Or.inl ⟨hw, rfl⟩
      | ok b =>
        rw [flush_ok_unopened enc w b hne hw hb]
        exact Or.inr ⟨b, hne, rfl, rfl, rfl⟩
  · intro s hw
    constructor
    · exact (flush_frame enc w).2.2.2.2.2.2.2 s hw
    · intro b hne hb
      rw [flush_ok_opened enc w b s hne hw hb]
  · exact ⟨(flush_frame enc w).1, fun r => (push_frame enc w r).1⟩
  · intro w1 hfl
    rw [finish_of_flush_ok enc w w1 hfl]

/-- Witness for C2: from a state already open with schema `5`, flushing a
batch whose freshly derived schema would be `1` keeps schema `5` and still
writes the batch. -/
theorem claim_C2_witness :
    (wOpen5.flush encByLen).1.writer = some 5 ∧
    (wOpen5.flush encByLen).1.written = [] ++ [⟨1, 1⟩] := by
  have h := claim_C2_writer_state_machine encByLen wOpen5
  exact ⟨(h.2.1 5 rfl).1, (h.2.1 5 rfl).2 ⟨1, 1⟩ (by decide) (by decide)⟩

/-! ### Claim C3 -/

/-- Claim C3: `push_row` appends the row to the pending buffer, adds its
byte length to the counter, and triggers `flush` before returning exactly
when the accumulated bytes reach the threshold (whose effective minimum is 1
byte — a caller-supplied 0 is coerced upward by `new`); a row that alone
reaches the threshold causes exactly one flush whose batch includes it. -/
theorem claim_C3_push_threshold (enc : Encoder) (out : Path) (tb : Nat)
    (w : VariantBatchWriter) (row : String) :
    (VariantBatchWriter.new out tb).target_bytes = max tb 1 ∧
    1 ≤ (VariantBatchWriter.new out tb).target_bytes ∧
    (w.pending_bytes + utf8Len row < w.target_bytes →
      w.push_row enc row = (afterAppend w row, none)) ∧
    (w.target_bytes ≤ w.pending_bytes + utf8Len row →
      w.push_row enc row = (afterAppend w row).flush enc) ∧
    (∀ b, w.pending_rows = [] → w.target_bytes ≤ w.pending_bytes + utf8Len row →
      build_batch enc [row] = Except.ok b →
      (w.push_row enc row).1.written = w.written ++ [b] ∧
      (w.push_row enc row).1.pending_rows = []) := by
  have htgt : (afterAppend w row).target_bytes = w.target_bytes := rfl
  have hpb : (afterAppend w row).pending_bytes = w.pending_bytes + utf8Len row := rfl
  refine ⟨rfl, ?_, ?_, ?_, ?_⟩
  · show 1 ≤ max tb 1
    exact le_max_right tb 1
  · intro hlt
    rw [push_row_eq, if_neg]
    rw [htgt, hpb]
    omega
  · intro hge
    rw [push_row_eq, if_pos]
    rw [htgt, hpb]
    exact hge
  · intro b hemp hge hb
    have hpush : w.push_row enc row = (afterAppend w row).flush enc := by
      rw [push_row_eq, if_pos]
      rw [htgt, hpb]
      exact hge
    have hrows : (afterAppend w row).pending_rows = [row] := by
      show w.pending_rows ++ [row] = [row]
      rw [hemp, List.nil_append]
    have hne : (afterAppend w row).pending_rows ≠ [] := by
      rw [hrows]
      exact List.cons_ne_nil row []
    have hb2 : build_batch enc (afterAppend w row).pending_rows = Except.ok b := by
      rw [hrows]
      exact hb
    rw [hpush]
    cases hwr : (afterAppend w row).writer with
    | none =>
      rw [flush_ok_unopened enc (afterAppend w row) b hne hwr hb2]
      exact ⟨rfl, rfl⟩
    | some s =>
      rw [flush_ok_opened enc (afterAppend w row) b s hne hwr hb2]
      exact ⟨rfl, rfl⟩

/-- Witness for C3: a zero byte target is coerced to 1; a 12-byte row pushed
into an empty accumulator with a 10-byte target flushes immediately, alone,
in one batch. -/
theorem claim_C3_witness :
    (VariantBatchWriter.new [] 0).target_bytes = max 0 1 ∧
    ((VariantBatchWriter.new [] 10).push_row encOk "aaaaaaaaaaaa").1.written
        = [] ++ [⟨1, 0⟩] ∧
    ((VariantBatchWriter.new [] 10).push_row encOk "aaaaaaaaaaaa").1.pending_rows
        = [] := by
  have h0 := claim_C3_push_threshold encOk [] 0 (VariantBatchWriter.new [] 10)
    "aaaaaaaaaaaa"
  have h5 := h0.2.2.2.2 ⟨1, 0⟩ (by decide) (by decide) (by decide)
  exact ⟨h0.1, h5.1, h5.2⟩

/-! ### Claim C4 -/

/-- Counterexample to claim C4 as stated: on a non-empty flush whose batch
conversion fails, the byte counter has NOT been reset before the failure
point — the code resets `pending_bytes` only after `build_batch` succeeds —
so the failed state keeps its old counter value `1`. -/
theorem claim_C4_counterexample :
    wPend1.pending_rows ≠ [] ∧
    (wPend1.flush encBad).2 = some Err.encodingFailure ∧
    (wPend1.flush encBad).1.pending_bytes = 1 := by decide

/-- Claim C4 (amended): on every non-empty flush the pending buffer is taken
(emptied) before the conversion step, so no failure can leave both the old
buffer and a new one alive; the byte counter resets to zero only after a
successful conversion (before the writer-creation and write steps), while on
a conversion failure it keeps its pre-flush value — but since the buffer is
already empty, a re-triggered flush is a no-op that writes nothing. -/
theorem claim_C4_amended_flush_reset (enc : Encoder) (w : VariantBatchWriter)
    (hne : w.pending_rows ≠ []) :
    (w.flush enc).1.pending_rows = [] ∧
    ((w.flush enc).2 = none → (w.flush enc).1.pending_bytes = 0) ∧
    ((w.flush enc).2.isSome = true →
      (w.flush enc).1.pending_bytes = w.pending_bytes ∧
      (w.flush enc).1.written = w.written ∧
      (w.flush enc).1.flush enc = ((w.flush enc).1, none)) := by
  cases hb : build_batch enc w.pending_rows with
  | error e =>
    have he := build_batch_err enc w.pending_rows e hb
    subst he
    rw [flush_err enc w hne hb]
    refine ⟨rfl, ?_, ?_⟩
    · intro h
      exact Option.noConfusion h
    · intro _
      exact ⟨rfl, rfl, flush_of_empty enc _ rfl⟩
  | ok b =>
    cases hwr : w.writer with
    | none =>
      rw [flush_ok_unopened enc w b hne hwr hb]
      exact ⟨rfl, fun _ => rfl, fun hs => absurd hs (by simp)⟩
    | some s =>
      rw [flush_ok_opened enc w b s hne hwr hb]
      exact ⟨rfl, fun _ => rfl, fun hs => absurd hs (by simp)⟩

/-- Witness for the amended C4, at the same failing state and encoder as the
counterexample. -/
theorem claim_C4_witness :
    wPend1.pending_rows ≠ [] ∧
    ((wPend1.flush encBad).1.pending_rows = [] ∧
     ((wPend1.flush encBad).2 = none → (wPend1.flush encBad).1.pending_bytes = 0) ∧
     ((wPend1.flush encBad).2.isSome = true →
       (wPend1.flush encBad).1.pending_bytes = wPend1.pending_bytes ∧
       (wPend1.flush encBad).1.written = wPend1.written ∧
       (wPend1.flush encBad).1.flush encBad = ((wPend1.flush encBad).1, none))) :=
  ⟨by decide, claim_C4_amended_flush_reset encBad wPend1 (by decide)⟩

/-! ### Claim C5 -/

theorem str_eq_empty_of_data_nil {s : String} (h : s.data = []) : s = "" := by
  cases s with
  | mk d =>
    cases h
    rfl

theorem ndjsonLoop_pushedLog (enc : Encoder) :
    ∀ (lines : List String) (saw : Bool) (w : VariantBatchWriter),
      (ndjsonLoop enc lines saw w).2.2 = none →
      (ndjsonLoop enc lines saw w).1.pushedLog = w.pushedLog ++ trimmedRows lines
  | [], saw, w, _ => by simp [ndjsonLoop_nil, trimmedRows_nil]
  | line :: rest, saw, w, h => by
    by_cases hb : (rustTrim line).data = []
    · rw [ndjsonLoop_cons_blank enc line rest saw w hb] at h ⊢
      rw [trimmedRows_cons_blank line rest hb]
      exact ndjsonLoop_pushedLog enc rest saw w h
    · cases hp : w.push_row enc (rustTrim line) with
      | mk w1 r =>
        rw [ndjsonLoop_cons_row enc line rest saw w w1 r hb hp] at h ⊢
        cases r with
        | some e => exact Option.noConfusion h
        | none =>
          have ih := ndjsonLoop_pushedLog enc rest true w1 h
          have hplog : w1.pushedLog = w.pushedLog ++ [rustTrim line] := by
            have hpf := (push_frame enc w (rustTrim line)).2.1
            rw [hp] at hpf
            exact hpf
          rw [trimmedRows_cons_row line rest hb, ih, hplog]
          simp

theorem ndjsonLoop_all_blank (enc : Encoder) :
    ∀ (lines : List String) (saw : Bool) (w : VariantBatchWriter),
      trimmedRows lines = [] → ndjsonLoop enc lines saw w = (w, saw, none)
  | [], saw, w, _ => rfl
  | line :: rest, saw, w, h => by
    by_cases hb : (rustTrim line).data = []
    · rw [ndjsonLoop_cons_blank enc line rest saw w hb]
      rw [trimmedRows_cons_blank line rest hb] at h
      exact ndjsonLoop_all_blank enc rest saw w h
    · rw [trimmedRows_cons_row line rest hb] at h
      exact absurd h (List.cons_ne_nil _ _)

/-- Claim C5: empty input is handled asymmetrically.  A single-document file
whose content trims to empty is silently skipped with the state untouched;
an NDJSON file with no non-blank line fails with `EmptyNdjsonFile` carrying
its path (also leaving the state untouched); a non-empty single-document
file pushes exactly its one trimmed row; an NDJSON file pushes exactly one
trimmed row per non-blank line, skipping blank lines silently. -/
theorem claim_C5_empty_input_asymmetry (enc : Encoder) (f : SourceFile)
    (w : VariantBatchWriter) :
    (rustTrim f.content = "" → process_single_json enc f w = (w, none)) ∧
    (trimmedRows (rustLines f.content) = [] →
      process_ndjson_file enc f w = (w, some (Err.emptyNdjsonFile f.path))) ∧
    (rustTrim f.content ≠ "" →
      (process_single_json enc f w).1.pushedLog
        = w.pushedLog ++ [rustTrim f.content]) ∧
    ((process_ndjson_file enc f w).2 = none →
      (process_ndjson_file enc f w).1.pushedLog
        = w.pushedLog ++ ndjsonRows f.content) := by
  refine ⟨?_, ?_, ?_, ?_⟩
  · intro h
    have hd : (rustTrim f.content).data = [] := by rw [h]
    simp [process_single_json, hd]
  · intro h
    unfold process_ndjson_file
    rw [ndjsonLoop_all_blank enc (rustLines f.content) false w h]
    rfl
  · intro hne
    have hd : ¬(rustTrim f.content).data = [] :=
      fun hc => hne (str_eq_empty_of_data_nil hc)
    have heq : process_single_json enc f w = w.push_row enc (rustTrim f.content) := by
      simp [process_single_json, hd]
    rw [heq]
    exact (push_frame enc w (rustTrim f.content)).2.1
  · intro h
    unfold process_ndjson_file at h ⊢
    cases hl : ndjsonLoop enc (rustLines f.content) false w with
    | mk w1 p =>
      cases p with
      | mk saw r =>
        cases r with
        | some e =>
          rw [hl] at h
          exact Option.noConfusion h
        | none =>
          have hpl := ndjsonLoop_pushedLog enc (rustLines f.content) false w (by rw [hl])
          rw [hl] at hpl
          cases saw with
          | false =>
            rw [hl] at h
            exact Option.noConfusion h
          | true => exact hpl

/-- Witness for C5, at four concrete files: a blank single, a blank NDJSON,
a non-empty single and a mixed NDJSON file. -/
theorem claim_C5_witness :
    process_single_json encOk ⟨["e.json"], " \n "⟩ (VariantBatchWriter.new [] 100)
      = (VariantBatchWriter.new [] 100, none) ∧
    process_ndjson_file encOk ⟨["e.jsonl"], " \n "⟩ (VariantBatchWriter.new [] 100)
      = (VariantBatchWriter.new [] 100, some (Err.emptyNdjsonFile ["e.jsonl"])) ∧
    (process_single_json encOk ⟨["s.json"], " 7 "⟩
        (VariantBatchWriter.new [] 100)).1.pushedLog = [] ++ ["7"] ∧
    (process_ndjson_file encOk ⟨["n.jsonl"], "a\n\nb"⟩
        (VariantBatchWriter.new [] 100)).1.pushedLog = ["a", "b"] := by
  refine ⟨(claim_C5_empty_input_asymmetry encOk ⟨["e.json"], " \n "⟩ _).1 (by decide),
    (claim_C5_empty_input_asymmetry encOk ⟨["e.jsonl"], " \n "⟩ _).2.1 (by decide),
    ?_, ?_⟩
  · have h := (claim_C5_empty_input_asymmetry encOk ⟨["s.json"], " 7 "⟩
      (VariantBatchWriter.new [] 100)).2.2.1 (by decide)
    rw [h]
    decide
  · have h := (claim_C5_empty_input_asymmetry encOk ⟨["n.jsonl"], "a\n\nb"⟩
      (VariantBatchWriter.new [] 100)).2.2.2 (by decide)
    rw [h]
    decide

/-! ### Claim C7 -/

/-- Claim C7: an explicit `ndjson`/`single` request is passed through
unchanged for every file; `auto` decides from the extension alone
(`infer_file_format` is a function of `pathExtension` only, so no content is
ever inspected), mapping the case-insensitive multi-record extensions to
NDJSON and everything else, including no extension, to SINGLE. -/
theorem claim_C7_format_detection (p q : Path) :
    resolveFormat InputFormat.ndjson p = FileFormat.ndjson ∧
    resolveFormat InputFormat.single p = FileFormat.single ∧
    resolveFormat InputFormat.auto p = infer_file_format p ∧
    (pathExtension p = pathExtension q →
      infer_file_format p = infer_file_format q) ∧
    (infer_file_format p = FileFormat.ndjson ↔
      ∃ e, pathExtension p = some e ∧
        ["jsonl", "ndjson", "jsonlines"].contains (asciiLower e) = true) := by
  refine ⟨rfl, rfl, rfl, ?_, ?_⟩
  · intro h
    unfold infer_file_format has_ndjson_hint
    rw [h]
  · unfold infer_file_format has_ndjson_hint
    cases he : pathExtension p with
    | none => simp
    | some e =>
      constructor
      · intro h
        refine ⟨e, rfl, ?_⟩
        by_contra hc
        rw [if_neg (by simpa using hc)] at h
        exact FileFormat.noConfusion h
      · rintro ⟨e2, he2, hc⟩
        injection he2 with he2
        subst he2
        rw [if_pos (by simpa using hc)]

/-- Witness for C7: explicit override on a `.json` file, extension-only
detection across directories and case, and the NDJSON mapping. -/
theorem claim_C7_witness :
    resolveFormat InputFormat.ndjson ["a.json"] = FileFormat.ndjson ∧
    infer_file_format ["x", "a.ndjson"] = infer_file_format ["b.ndjson"] ∧
    infer_file_format ["c.JsOnL"] = FileFormat.ndjson := by
  refine ⟨(claim_C7_format_detection ["a.json"] ["a.json"]).1, ?_, ?_⟩
  · exact (claim_C7_format_detection ["x", "a.ndjson"] ["b.ndjson"]).2.2.2.1 (by decide)
  · exact (claim_C7_format_detection ["c.JsOnL"] ["c.JsOnL"]).2.2.2.2.mpr
      ⟨"JsOnL", by decide, by decide⟩

/-! ### Claim C9 -/

/-- Claim C9: a root that is a regular file is returned as the single
candidate with no extension filtering; the enumerator fails with
`NotFileOrDirectory` exactly when the root is neither a regular file nor a
directory. -/
theorem claim_C9_root_handling (input : Path) (root : FsEntry) (recursive : Bool) :
    (∀ c, root = FsEntry.file c →
      collect_sources input root recursive = Except.ok [input]) ∧
    (collect_sources input root recursive
        = Except.error (Err.notFileOrDirectory input) ↔
      root = FsEntry.other) := by
  constructor
  · intro c hc
    subst hc
    rfl
  · constructor
    · intro h
      cases root with
      | file c => exact absurd h (by simp [collect_sources])
      | other => rfl
      | dir es => exact absurd h (by simp [collect_sources])
    · intro h
      subst h
      rfl

/-- Witness for C9: a `.txt` file root is accepted unfiltered; a root that
is neither file nor directory is rejected. -/
theorem claim_C9_witness :
    collect_sources ["x.txt"] (FsEntry.file "c") true = Except.ok [["x.txt"]] ∧
    collect_sources ["z"] FsEntry.other false
      = Except.error (Err.notFileOrDirectory ["z"]) :=
  ⟨(claim_C9_root_handling ["x.txt"] (FsEntry.file "c") true).1 "c" rfl,
   (claim_C9_root_handling ["z"] FsEntry.other false).2.mpr rfl⟩

/-! ### Error provenance, and claim C8 -/

theorem flush_err_shape (enc : Encoder) (w : VariantBatchWriter) (e : Err)
    (h : (w.flush enc).2 = some e) : e = Err.encodingFailure := by
  by_cases hne : w.pending_rows = []
  · rw [flush_of_empty enc w hne] at h
    exact Option.noConfusion h
  · cases hb : build_batch enc w.pending_rows with
    | error e2 =>
      have he := build_batch_err enc w.pending_rows e2 hb
      subst he
      rw [flush_err enc w hne hb] at h
      injection h with h
      exact h.symm
    | ok b =>
      cases hwr : w.writer with
      | none =>
        rw [flush_ok_unopened enc w b hne hwr hb] at h
        exact Option.noConfusion h
      | some s =>
        rw [flush_ok_opened enc w b s hne hwr hb] at h
        exact Option.noConfusion h

theorem push_err_shape (enc : Encoder) (w : VariantBatchWriter) (row : String)
    (e : Err) (h : (w.push_row enc row).2 = some e) : e = Err.encodingFailure := by
  rw [push_row_eq] at h
  by_cases hc : (afterAppend w row).target_bytes ≤ (afterAppend w row).pending_bytes
  · rw [if_pos hc] at h
    exact flush_err_shape enc (afterAppend w row) e h
  · rw [if_neg hc] at h
    exact Option.noConfusion h

theorem single_err_shape (enc : Encoder) (f : SourceFile) (w : VariantBatchWriter)
    (e : Err) (h : (process_single_json enc f w).2 = some e) :
    e = Err.encodingFailure := by
  unfold process_single_json at h
  by_cases hd : (rustTrim f.content).data = []
  · rw [if_pos hd] at h
    exact Option.noConfusion h
  · rw [if_neg hd] at h
    exact push_err_shape enc w (rustTrim f.content) e h

theorem ndjsonLoop_err_shape (enc : Encoder) :
    ∀ (lines : List String) (saw : Bool) (w : VariantBatchWriter) (e : Err),
      (ndjsonLoop enc lines saw w).2.2 = some e → e = Err.encodingFailure
  | [], _, _, _, h => Option.noConfusion h
  | line :: rest, saw, w, e, h => by
    by_cases hb : (rustTrim line).data = []
    · rw [ndjsonLoop_cons_blank enc line rest saw w hb] at h
      exact ndjsonLoop_err_shape enc rest saw w e h
    · cases hp : w.push_row enc (rustTrim line) with
      | mk w1 r =>
        rw [ndjsonLoop_cons_row enc line rest saw w w1 r hb hp] at h
        cases r with
        | some e2 =>
          injection h with h
          rw [← h]
          exact push_err_shape enc w (rustTrim line) e2 (by rw [hp])
        | none => exact ndjsonLoop_err_shape enc rest true w1 e h

theorem ndjson_err_shape (enc : Encoder) (f : SourceFile) (w : VariantBatchWriter)
    (e : Err) (h : (process_ndjson_file enc f w).2 = some e) :
    e = Err.encodingFailure ∨ e = Err.emptyNdjsonFile f.path := by
  unfold process_ndjson_file at h
  cases hl : ndjsonLoop enc (rustLines f.content) false w with
  | mk w1 p =>
    cases p with
    | mk saw r =>
      rw [hl] at h
      cases r with
      | some e2 =>
        injection h with h
        rw [← h]
        exact Or.inl (ndjsonLoop_err_shape enc (rustLines f.content) false w e2
          (by rw [hl]))
      | none =>
        cases saw with
        | true => exact Option.noConfusion h
        | false =>
          injection h with h
          exact Or.inr h.symm

theorem source_err_shape (enc : Encoder) (fmt : InputFormat) (f : SourceFile)
    (w : VariantBatchWriter) (e : Err)
    (h : (process_source enc fmt f w).2 = some e) :
    e = Err.encodingFailure ∨ e = Err.emptyNdjsonFile f.path := by
  unfold process_source at h
  cases hrf : resolveFormat fmt f.path with
  | single =>
    rw [hrf] at h
    exact Or.inl (single_err_shape enc f w e h)
  | ndjson =>
    rw [hrf] at h
    exact ndjson_err_shape enc f w e h

theorem processAll_err_shape (enc : Encoder) (fmt : InputFormat) :
    ∀ (files : List SourceFile) (w : VariantBatchWriter) (e : Err),
      (processAll enc fmt files w).2 = some e →
      e = Err.encodingFailure ∨ ∃ p, e = Err.emptyNdjsonFile p
  | [], _, _, h => Option.noConfusion h
  | f :: rest, w, e, h => by
    cases hp : process_source enc fmt f w with
    | mk w1 r =>
      cases r with
      | some e2 =>
        have hpa : processAll enc fmt (f :: rest) w = (w1, some e2) := by
          simp only [processAll, hp]
        rw [hpa] at h
        injection h with h
        rw [← h]
        rcases source_err_shape enc fmt f w e2 (by rw [hp]) with h2 | h2
        · exact Or.inl h2
        · exact Or.inr ⟨f.path, h2⟩
      | none =>
        have hpa : processAll enc fmt (f :: rest) w = processAll enc fmt rest w1 := by
          simp only [processAll, hp]
        rw [hpa] at h
        exact processAll_err_shape enc fmt rest w1 e h

/-- Claim C8: `finish` drains with exactly one more flush (on success the
returned count is the drained state's total and nothing stays pending, on
failure the error propagates unfinalized), it closes the writer exactly when
the writer was ever opened; `NoSourcesFound` is returned precisely when the
enumeration is empty — before any file is processed — while `NoRowsWritten`
is returned after a complete zero-row run. -/
theorem claim_C8_finish_and_terminal_errors (enc : Encoder)
    (w w1 : VariantBatchWriter) (fmt : InputFormat) (input : Path)
    (files : List SourceFile) (bb : Nat) :
    (w.flush enc = (w1, none) →
      (w.finish enc).2 = Except.ok w1.total_rows ∧
      (w.finish enc).1.pending_rows = [] ∧
      (w.closed = false →
        (((w.finish enc).1.closed = true) ↔ w1.writer.isSome = true))) ∧
    (∀ e, w.flush enc = (w1, some e) → w.finish enc = (w1, Except.error e)) ∧
    (runOnFiles enc fmt input files bb
        = Except.error (Err.noSourcesFound input) ↔ files = []) ∧
    (∀ w2 w3, files ≠ [] →
      processAll enc fmt files (VariantBatchWriter.new [] bb) = (w2, none) →
      w2.finish enc = (w3, Except.ok 0) →
      runOnFiles enc fmt input files bb
        = Except.error (Err.noRowsWritten input)) := by
  refine ⟨?_, ?_, ?_, ?_⟩
  · intro hfl
    rw [finish_of_flush_ok enc w w1 hfl]
    have hpend : w1.pending_rows = [] := by
      have hp := (flush_frame enc w).2.2.2.2.1
      rw [hfl] at hp
      exact hp
    have hcl : w1.closed = w.closed := by
      have hc := (flush_frame enc w).1
      rw [hfl] at hc
      exact hc
    refine ⟨rfl, hpend, ?_⟩
    intro hc0
    cases hs : w1.writer.isSome with
    | true => simp [hs]
    | false => simp [hs, hcl, hc0]
  · intro e hfl
    exact finish_of_flush_err enc w w1 e hfl
  · constructor
    · intro h
      by_cases hf : files = []
      · exact hf
      · exfalso
        cases hpa : processAll enc fmt files (VariantBatchWriter.new [] bb) with
        | mk w2 r =>
          cases r with
          | some e =>
            rw [runOnFiles_eq_err enc fmt input files bb w2 e hf hpa] at h
            injection h with h
            rcases processAll_err_shape enc fmt files (VariantBatchWriter.new [] bb) e
              (by rw [hpa]) with h2 | ⟨p, h2⟩ <;> rw [h2] at h <;> exact Err.noConfusion h
          | none =>
            rw [runOnFiles_eq_ok enc fmt input files bb w2 hf hpa] at h
            cases hfl2 : w2.flush enc with
            | mk w3 r2 =>
              cases r2 with
              | some e =>
                rw [finish_of_flush_err enc w2 w3 e hfl2] at h
                injection h with h
                have he := flush_err_shape enc w2 e (by rw [hfl2])
                rw [he] at h
                exact Err.noConfusion h
              | none =>
                rw [finish_of_flush_ok enc w2 w3 hfl2] at h
                have h3 : (if w3.total_rows = 0
                    then (Except.error (Err.noRowsWritten input) : Except Err Nat)
                    else Except.ok w3.total_rows)
                    = Except.error (Err.noSourcesFound input) := h
                by_cases hz : w3.total_rows = 0
                · rw [if_pos hz] at h3
                  injection h3 with h3
                  exact Err.noConfusion h3
                · rw [if_neg hz] at h3
                  exact Except.noConfusion h3
    · intro h
      subst h
      rfl
  · intro w2 w3 hne hpa hfin
    rw [runOnFiles_eq_ok enc fmt input files bb w2 hne hpa, hfin]
    rfl

/-- Witness for C8: draining a one-row pending state returns total 1; an
empty enumeration reports `NoSourcesFound`; a run whose only file is a
blank single-document file reports `NoRowsWritten`. -/
theorem claim_C8_witness :
    (wPend1.finish encOk).2
      = Except.ok ({ VariantBatchWriter.new [] 100 with
          writer := some 0, total_rows := 1,
          written := [⟨1, 0⟩] } : VariantBatchWriter).total_rows ∧
    (runOnFiles encOk InputFormat.auto ["in"] [] 10
      = Except.error (Err.noSourcesFound ["in"]) ↔ ([] : List SourceFile) = []) ∧
    runOnFiles encOk InputFormat.auto ["in"] [⟨["s.json"], " "⟩] 10
      = Except.error (Err.noRowsWritten ["in"]) := by
  refine ⟨?_, ?_, ?_⟩
  · exact ((claim_C8_finish_and_terminal_errors encOk wPend1
      ({ VariantBatchWriter.new [] 100 with
          writer := some 0, total_rows := 1, written := [⟨1, 0⟩] })
      InputFormat.auto ["in"] [] 10).1 (by decide)).1
  · exact (claim_C8_finish_and_terminal_errors encOk wPend1 wPend1
      InputFormat.auto ["in"] [] 10).2.2.1
  · exact (claim_C8_finish_and_terminal_errors encOk wPend1 wPend1
      InputFormat.auto ["in"] [⟨["s.json"], " "⟩] 10).2.2.2
      (VariantBatchWriter.new [] 10) (VariantBatchWriter.new [] 10)
      (by simp) (by decide) (by decide)

/-! ### The path order is a total preorder, and `sortPaths` sorts -/

theorem cmpChars_eq_iff : ∀ (a b : List Char), cmpChars a b = Ordering.eq ↔ a = b
  | [], [] => by simp [cmpChars]
  | [], _ :: _ => by simp [cmpChars]
  | _ :: _, [] => by simp [cmpChars]
  | a :: as, b :: bs => by
    unfold cmpChars
    by_cases h1 : a < b
    · rw [if_pos h1]
      constructor
      · intro h
        exact Ordering.noConfusion h
      · intro h
        injection h with h2 _
        exact absurd h1 (by rw [h2]; exact lt_irrefl b)
    · rw [if_neg h1]
      by_cases h2 : b < a
      · rw [if_pos h2]
        constructor
        · intro h
          exact Ordering.noConfusion h
        · intro h
          injection h with h3 _
          exact absurd h2 (by rw [h3]; exact lt_irrefl b)
      · rw [if_neg h2]
        have hab : a = b := le_antisymm (not_lt.mp h2) (not_lt.mp h1)
        subst hab
        rw [cmpChars_eq_iff as bs]
        simp

theorem cmpChars_swap : ∀ (a b : List Char), cmpChars b a = (cmpChars a b).swap
  | [], [] => rfl
  | [], _ :: _ => rfl
  | _ :: _, [] => rfl
  | a :: as, b :: bs => by
    unfold cmpChars
    rcases lt_trichotomy a b with h | h | h
    · simp [h, lt_asymm h, Ordering.swap]
    · subst h
      simp only [lt_irrefl a, if_false]
      exact cmpChars_swap as bs
    · simp [h, lt_asymm h, Ordering.swap]

theorem cmpChars_lt_trans : ∀ (a b c : List Char),
    cmpChars a b = Ordering.lt → cmpChars b c = Ordering.lt →
    cmpChars a c = Ordering.lt
  | [], [], c => fun h1 _ => absurd h1 (by simp [cmpChars])
  | [], _ :: _, [] => fun _ h2 => absurd h2 (by simp [cmpChars])
  | [], _ :: _, _ :: _ => fun _ _ => by simp [cmpChars]
  | _ :: _, [], _ => fun h1 _ => absurd h1 (by simp [cmpChars])
  | _ :: _, _ :: _, [] => fun _ h2 => absurd h2 (by simp [cmpChars])
  | a :: as, b :: bs, c :: cs => by
    intro h1 h2
    unfold cmpChars at h1 h2 ⊢
    by_cases hab : a < b
    · by_cases hbc : b < c
      · rw [if_pos (lt_trans hab hbc)]
      · by_cases hcb : c < b
        · rw [if_neg hbc, if_pos hcb] at h2
          exact Ordering.noConfusion h2
        · have hbc2 : b = c := le_antisymm (not_lt.mp hcb) (not_lt.mp hbc)
          subst hbc2
          rw [if_pos hab]
    · by_cases hba : b < a
      · rw [if_neg hab, if_pos hba] at h1
        exact Ordering.noConfusion h1
      · have hab2 : a = b := le_antisymm (not_lt.mp hba) (not_lt.mp hab)
        subst hab2
        rw [if_neg (lt_irrefl a), if_neg (lt_irrefl a)] at h1
        by_cases hac : a < c
        · rw [if_pos hac]
        · by_cases hca : c < a
          · rw [if_neg hac, if_pos hca] at h2
            exact Ordering.noConfusion h2
          · have hac2 : a = c := le_antisymm (not_lt.mp hca) (not_lt.mp hac)
            subst hac2
            rw [if_neg (lt_irrefl a), if_neg (lt_irrefl a)] at h2
            rw [if_neg (lt_irrefl a), if_neg (lt_irrefl a)]
            exact cmpChars_lt_trans as bs cs h1 h2

theorem str_data_inj {a b : String} (h : a.data = b.data) : a = b := by
  cases a with
  | mk d1 =>
    cases b with
    | mk d2 =>
      cases h
      rfl

theorem cmpStr_eq_iff (a b : String) : cmpStr a b = Ordering.eq ↔ a = b := by
  unfold cmpStr
  rw [cmpChars_eq_iff]
  exact ⟨str_data_inj, fun h => by rw [h]⟩

theorem cmpStr_swap (a b : String) : cmpStr b a = (cmpStr a b).swap :=
  cmpChars_swap a.data b.data

theorem cmpStr_lt_trans {a b c : String}
    (h1 : cmpStr a b = Ordering.lt) (h2 : cmpStr b c = Ordering.lt) :
    cmpStr a c = Ordering.lt :=
  cmpChars_lt_trans a.data b.data c.data h1 h2

theorem cmpPath_eq_iff : ∀ (a b : Path), cmpPath a b = Ordering.eq ↔ a = b
  | [], [] => by simp [cmpPath]
  | [], _ :: _ => by simp [cmpPath]
  | _ :: _, [] => by simp [cmpPath]
  | a :: as, b :: bs => by
    unfold cmpPath
    cases hab : cmpStr a b with
    | lt =>
      constructor
      · intro h
        exact Ordering.noConfusion h
      · intro h
        injection h with h2 _
        rw [(cmpStr_eq_iff a b).mpr h2] at hab
        exact Ordering.noConfusion hab
    | gt =>
      constructor
      · intro h
        exact Ordering.noConfusion h
      · intro h
        injection h with h2 _
        rw [(cmpStr_eq_iff a b).mpr h2] at hab
        exact Ordering.noConfusion hab
    | eq =>
      have h2 : a = b := (cmpStr_eq_iff a b).mp hab
      subst h2
      rw [cmpPath_eq_iff as bs]
      simp

theorem cmpPath_swap : ∀ (a b : Path), cmpPath b a = (cmpPath a b).swap
  | [], [] => rfl
  | [], _ :: _ => rfl
  | _ :: _, [] => rfl
  | a :: as, b :: bs => by
    unfold cmpPath
    rw [cmpStr_swap a b]
    cases cmpStr a b with
    | lt => rfl
    | gt => rfl
    | eq => exact cmpPath_swap as bs

theorem cmpPath_lt_trans : ∀ (a b c : Path),
    cmpPath a b = Ordering.lt → cmpPath b c = Ordering.lt →
    cmpPath a c = Ordering.lt
  | [], [], _ => fun h1 _ => absurd h1 (by simp [cmpPath])
  | [], _ :: _, [] => fun _ h2 => absurd h2 (by simp [cmpPath])
  | [], _ :: _, _ :: _ => fun _ _ => by simp [cmpPath]
  | _ :: _, [], _ => fun h1 _ => absurd h1 (by simp [cmpPath])
  | _ :: _, _ :: _, [] => fun _ h2 => absurd h2 (by simp [cmpPath])
  | a :: as, b :: bs, c :: cs => by
    intro h1 h2
    unfold cmpPath at h1 h2 ⊢
    cases hab : cmpStr a b with
    | gt => rw [hab] at h1; exact Ordering.noConfusion h1
    | lt =>
      rw [hab] at h1
      cases hbc : cmpStr b c with
      | gt => rw [hbc] at h2; exact Ordering.noConfusion h2
      | lt =>
        rw [cmpStr_lt_trans hab hbc]
      | eq =>
        have h3 : b = c := (cmpStr_eq_iff b c).mp hbc
        subst h3
        rw [hab]
    | eq =>
      rw [hab] at h1
      have h3 : a = b := (cmpStr_eq_iff a b).mp hab
      subst h3
      cases hbc : cmpStr a c with
      | gt =>
        rw [hbc] at h2
        exact Ordering.noConfusion h2
      | lt => rfl
      | eq =>
        rw [hbc] at h2
        exact cmpPath_lt_trans as bs cs h1 h2

theorem pathLe_total (a b : Path) : pathLe a b ∨ pathLe b a := by
  unfold pathLe
  cases h : cmpPath a b with
  | lt => exact Or.inl (by simp)
  | eq => exact Or.inl (by simp)
  | gt =>
    refine Or.inr ?_
    rw [cmpPath_swap a b, h]
    simp [Ordering.swap]

theorem pathLe_trans (a b c : Path) (h1 : pathLe a b) (h2 : pathLe b c) :
    pathLe a c := by
  unfold pathLe at h1 h2 ⊢
  intro hac
  cases h : cmpPath a b with
  | gt => exact h1 h
  | eq =>
    have h3 : a = b := (cmpPath_eq_iff a b).mp h
    subst h3
    exact h2 hac
  | lt =>
    cases h4 : cmpPath b c with
    | gt => exact h2 h4
    | eq =>
      have h5 : b = c := (cmpPath_eq_iff b c).mp h4
      subst h5
      exact h1 hac
    | lt =>
      have h6 := cmpPath_lt_trans a b c h h4
      rw [hac] at h6
      exact Ordering.noConfusion h6

instance : IsTotal Path pathLe := ⟨pathLe_total⟩

instance : IsTrans Path pathLe := ⟨pathLe_trans⟩

theorem sortPaths_sorted (l : List Path) : List.Sorted pathLe (sortPaths l) :=
  List.sorted_insertionSort pathLe l

theorem sortPaths_perm (l : List Path) : List.Perm (sortPaths l) l :=
  List.perm_insertionSort pathLe l

/-! ### Walk and listing lemmas -/

mutual

theorem mem_walkEntryAt : ∀ (p : Path) (e : FsEntry) (q : Path),
    q ∈ walkEntryAt p e ↔ q ∈ allFilesAt p e ∧ looks_like_json q = true
  | p, .file c, q => by
    unfold walkEntryAt allFilesAt
    by_cases h : looks_like_json p = true
    · rw [if_pos h]
      constructor
      · intro hq
        rw [List.mem_singleton] at hq
        subst hq
        exact ⟨List.mem_singleton.mpr rfl, h⟩
      · intro hq
        exact hq.1
    · rw [if_neg h]
      constructor
      · intro hq
        exact absurd hq (List.not_mem_nil q)
      · rintro ⟨hq, hl⟩
        rw [List.mem_singleton] at hq
        subst hq
        exact absurd hl h
  | p, .dir es, q => mem_walkListAt p es q
  | p, .other, q => by simp [walkEntryAt, allFilesAt]

theorem mem_walkListAt : ∀ (base : Path) (es : List (String × FsEntry)) (q : Path),
    q ∈ walkListAt base es ↔ q ∈ allFilesListAt base es ∧ looks_like_json q = true
  | base, [], q => by simp [walkListAt, allFilesListAt]
  | base, (n, e) :: rest, q => by
    unfold walkListAt allFilesListAt
    rw [List.mem_append, List.mem_append, mem_walkEntryAt (base ++ [n]) e q,
      mem_walkListAt base rest q]
    tauto

end

mutual

theorem walkEntryAt_extends : ∀ (p : Path) (e : FsEntry) (q : Path),
    q ∈ walkEntryAt p e → ∃ t, q = p ++ t
  | p, .file c, q => by
    unfold walkEntryAt
    by_cases h : looks_like_json p = true
    · rw [if_pos h]
      intro hq
      rw [List.mem_singleton] at hq
      exact ⟨[], by rw [hq, List.append_nil]⟩
    · rw [if_neg h]
      intro hq
      exact absurd hq (List.not_mem_nil q)
  | p, .dir es, q => by
    intro hq
    obtain ⟨n, t, _, ht⟩ := walkListAt_extends p es q hq
    exact ⟨n :: t, ht⟩
  | p, .other, q => by simp [walkEntryAt]

theorem walkListAt_extends : ∀ (base : Path) (es : List (String × FsEntry)) (q : Path),
    q ∈ walkListAt base es →
    ∃ n t, n ∈ es.map Prod.fst ∧ q = base ++ n :: t
  | base, [], q => by simp [walkListAt]
  | base, (n, e) :: rest, q => by
    unfold walkListAt
    intro hq
    rcases List.mem_append.mp hq with h | h
    · obtain ⟨t, ht⟩ := walkEntryAt_extends (base ++ [n]) e q h
      refine ⟨n, t, by simp, ?_⟩
      rw [ht, List.append_assoc]
      rfl
    · obtain ⟨m, t, hm, ht⟩ := walkListAt_extends base rest q h
      refine ⟨m, t, ?_, ht⟩
      rw [List.map_cons]
      exact List.mem_cons_of_mem n hm

end

mutual

theorem walkEntryAt_nodup : ∀ (p : Path) (e : FsEntry),
    wfFs e = true → (walkEntryAt p e).Nodup
  | p, .file c, _ => by
    unfold walkEntryAt
    by_cases h : looks_like_json p = true
    · rw [if_pos h]
      exact List.nodup_singleton p
    · rw [if_neg h]
      exact List.nodup_nil
  | p, .dir es, hwf => by
    unfold wfFs at hwf
    rw [Bool.and_eq_true] at hwf
    exact walkListAt_nodup p es (of_decide_eq_true hwf.1) hwf.2
  | p, .other, _ => List.nodup_nil

theorem walkListAt_nodup : ∀ (base : Path) (es : List (String × FsEntry)),
    (es.map Prod.fst).Nodup → wfFsList es = true → (walkListAt base es).Nodup
  | base, [], _, _ => List.nodup_nil
  | base, (n, e) :: rest, hn, hwf => by
    unfold walkListAt
    unfold wfFsList at hwf
    rw [Bool.and_eq_true] at hwf
    rw [List.map_cons, List.nodup_cons] at hn
    refine List.Nodup.append (walkEntryAt_nodup (base ++ [n]) e hwf.1)
      (walkListAt_nodup base rest hn.2 hwf.2) ?_
    intro q hq1 hq2
    obtain ⟨t, ht⟩ := walkEntryAt_extends (base ++ [n]) e q hq1
    obtain ⟨m, t2, hm, ht2⟩ := walkListAt_extends base rest q hq2
    have he : base ++ n :: t = base ++ m :: t2 := by
      rw [← ht2, ht, List.append_assoc]
      rfl
    have hnm : n :: t = m :: t2 := by
      exact List.append_cancel_left he
    injection hnm with h1 _
    exact hn.1 (h1 ▸ hm)

end

theorem mem_listImmediate : ∀ (base : Path) (es : List (String × FsEntry)) (q : Path),
    q ∈ listImmediate base es ↔
      q ∈ immediateFilesAt base es ∧ looks_like_json q = true
  | base, [], q => by simp [listImmediate, immediateFilesAt]
  | base, (n, e) :: rest, q => by
    cases e with
    | file c =>
      unfold listImmediate immediateFilesAt
      by_cases h : looks_like_json (base ++ [n]) = true
      · rw [if_pos h, List.mem_cons, List.mem_cons, mem_listImmediate base rest q]
        constructor
        · rintro (rfl | ⟨hq, hl⟩)
          · exact ⟨Or.inl rfl, h⟩
          · exact ⟨Or.inr hq, hl⟩
        · rintro ⟨rfl | hq, hl⟩
          · exact Or.inl rfl
          · exact Or.inr ⟨hq, hl⟩
      · rw [if_neg h, mem_listImmediate base rest q, List.mem_cons]
        constructor
        · rintro ⟨hq, hl⟩
          exact ⟨Or.inr hq, hl⟩
        · rintro ⟨rfl | hq, hl⟩
          · exact absurd hl h
          · exact ⟨hq, hl⟩
    | dir es2 => exact mem_listImmediate base rest q
    | other => exact mem_listImmediate base rest q

theorem listImmediate_shape : ∀ (base : Path) (es : List (String × FsEntry)) (q : Path),
    q ∈ listImmediate base es → ∃ m, m ∈ es.map Prod.fst ∧ q = base ++ [m]
  | base, [], q => by simp [listImmediate]
  | base, (n, e) :: rest, q => by
    cases e with
    | file c =>
      unfold listImmediate
      by_cases h : looks_like_json (base ++ [n]) = true
      · rw [if_pos h, List.mem_cons]
        rintro (rfl | hq)
        · exact ⟨n, by simp, rfl⟩
        · obtain ⟨m, hm, hq2⟩ := listImmediate_shape base rest q hq
          exact ⟨m, by rw [List.map_cons]; exact List.mem_cons_of_mem n hm, hq2⟩
      · rw [if_neg h]
        intro hq
        obtain ⟨m, hm, hq2⟩ := listImmediate_shape base rest q hq
        exact ⟨m, by rw [List.map_cons]; exact List.mem_cons_of_mem n hm, hq2⟩
    | dir es2 =>
      intro hq
      obtain ⟨m, hm, hq2⟩ := listImmediate_shape base rest q hq
      exact ⟨m, by rw [List.map_cons]; exact List.mem_cons_of_mem n hm, hq2⟩
    | other =>
      intro hq
      obtain ⟨m, hm, hq2⟩ := listImmediate_shape base rest q hq
      exact ⟨m, by rw [List.map_cons]; exact List.mem_cons_of_mem n hm, hq2⟩

theorem listImmediate_nodup : ∀ (base : Path) (es : List (String × FsEntry)),
    (es.map Prod.fst).Nodup → (listImmediate base es).Nodup
  | base, [], _ => List.nodup_nil
  | base, (n, e) :: rest, hn => by
    rw [List.map_cons, List.nodup_cons] at hn
    cases e with
    | file c =>
      by_cases h : looks_like_json (base ++ [n]) = true
      · have heq : listImmediate base ((n, FsEntry.file c) :: rest)
            = (base ++ [n]) :: listImmediate base rest := by
          conv_lhs => unfold listImmediate
          rw [if_pos h]
        rw [heq, List.nodup_cons]
        refine ⟨?_, listImmediate_nodup base rest hn.2⟩
        intro hmem
        obtain ⟨m, hm, hq⟩ := listImmediate_shape base rest _ hmem
        have h2 : [n] = [m] := List.append_cancel_left hq
        injection h2 with h3 _
        exact hn.1 (h3 ▸ hm)
      · have heq : listImmediate base ((n, FsEntry.file c) :: rest)
            = listImmediate base rest := by
          conv_lhs => unfold listImmediate
          rw [if_neg h]
        rw [heq]
        exact listImmediate_nodup base rest hn.2
    | dir es2 => exact listImmediate_nodup base rest hn.2
    | other => exact listImmediate_nodup base rest hn.2

/-! ### Claim C6 -/

/-- Claim C6: with a directory root, the enumerator returns a list that is
sorted lexicographically by path, has no duplicates (for any well-formed
directory tree), and contains exactly the regular files of the full
recursive walk (recursive flag true) or of the immediate listing (flag
false) whose extension is case-insensitively JSON-like or missing. -/
theorem claim_C6_directory_enumeration (input : Path)
    (entries : List (String × FsEntry)) (recursive : Bool) (srcs : List Path)
    (h : collect_sources input (FsEntry.dir entries) recursive = Except.ok srcs) :
    List.Sorted pathLe srcs ∧
    (wfFs (FsEntry.dir entries) = true → srcs.Nodup) ∧
    (∀ p, p ∈ srcs ↔
      p ∈ (if recursive then allFilesListAt input entries
           else immediateFilesAt input entries) ∧
      looks_like_json p = true) := by
  have hs : srcs = sortPaths
      (if recursive then walkListAt input entries else listImmediate input entries) := by
    simp only [collect_sources, Except.ok.injEq] at h
    exact h.symm
  subst hs
  refine ⟨sortPaths_sorted _, ?_, ?_⟩
  · intro hwf
    unfold wfFs at hwf
    rw [Bool.and_eq_true] at hwf
    have hnd : (if recursive then walkListAt input entries
        else listImmediate input entries).Nodup := by
      cases recursive with
      | true =>
        simpa using walkListAt_nodup input entries (of_decide_eq_true hwf.1) hwf.2
      | false =>
        simpa using listImmediate_nodup input entries (of_decide_eq_true hwf.1)
    exact ((sortPaths_perm _).nodup_iff).mpr hnd
  · intro p
    rw [(sortPaths_perm _).mem_iff]
    cases recursive with
    | true => simpa using mem_walkListAt input entries p
    | false => simpa using mem_listImmediate input entries p

/-- Witness for C6: a directory with files of JSON-like, upper-case,
non-JSON and missing extensions, one subdirectory and one entry that is
neither file nor directory, walked recursively. -/
theorem claim_C6_witness :
    List.Sorted pathLe
      [["r", "a.JSON"], ["r", "b.jsonl"], ["r", "noext"], ["r", "sub", "d.ndjson"]] ∧
    ([["r", "a.JSON"], ["r", "b.jsonl"], ["r", "noext"],
      ["r", "sub", "d.ndjson"]] : List Path).Nodup ∧
    ["r", "sub", "d.ndjson"] ∈
      ([["r", "a.JSON"], ["r", "b.jsonl"], ["r", "noext"],
        ["r", "sub", "d.ndjson"]] : List Path) := by
  have h := claim_C6_directory_enumeration ["r"]
    [("b.jsonl", FsEntry.file "x"), ("a.JSON", FsEntry.file "y"),
     ("c.txt", FsEntry.file "z"), ("noext", FsEntry.file "w"),
     ("sub", FsEntry.dir [("d.ndjson", FsEntry.file "v")]),
     ("weird", FsEntry.other)] true
    [["r", "a.JSON"], ["r", "b.jsonl"], ["r", "noext"], ["r", "sub", "d.ndjson"]]
    (by decide)
  exact ⟨h.1, h.2.1 (by decide), (h.2.2 ["r", "sub", "d.ndjson"]).mpr (by decide)⟩

end JsonToVariant